import Mathlib

/-
Verification of a small SSA basic-block optimizer (src/main.py) built on a
union-find equivalence structure over IR values.

The Python heap of objects is embedded as an arena: every `Value` (Constant or
Operation) is a cell in a list `Heap`, addressed by its index.  Reference
identity of Python objects becomes index equality.  The mutable `forwarded`
field of an Operation is the `Option Nat` component of its cell.  `find`
(chain chasing) is given fuel `h.length`, which suffices for every acyclic
heap; a `none` result models the non-termination of the Python loop.
Assertion failures and argument errors are modelled with `Except Err`.
-/

namespace ToyOpt

/-- A heap cell: either `Constant(value)` or `Operation(name, args, forwarded)`
from src/main.py, with object references replaced by heap indices. -/
inductive Cell where
  | const : Int → Cell
  | oper : String → List Nat → Option Nat → Cell
deriving DecidableEq, Repr

abbrev Heap := List Cell

abbrev Block := List Nat

/-- Errors of the embedded program: `assertConst` is the assertion in
`Constant._set_forwarded`, `fuel` models a non-terminating `find` loop,
`badRef` models an out-of-range argument index / a dangling reference. -/
inductive Err where
  | assertConst : Err
  | fuel : Err
  | badRef : Err
deriving DecidableEq, Repr

/-- `Operation.find` / `Constant.find` from src/main.py: follow the
`forwarded` chain to a terminal value.  The Python `while` loop is given
explicit fuel; `none` means the fuel ran out (the loop would not have
terminated within that many steps). -/
def findFuel (h : Heap) : Nat → Nat → Option Nat
  | 0, _ => none
  | fuel + 1, i =>
    match h[i]? with
    | some (Cell.const _) => some i
    | some (Cell.oper _ _ none) => some i
    | some (Cell.oper _ _ (some j)) => findFuel h fuel j
    | none => none

/-- `v.find()` with the default fuel `h.length`: enough steps for any acyclic
heap, since a chain without repetitions visits each cell at most once. -/
def find (h : Heap) (i : Nat) : Option Nat :=
  findFuel h h.length i

/-- `Operation.arg(index)` from src/main.py: the representative of stored
argument `index`. -/
def argOf (h : Heap) (i k : Nat) : Except Err Nat :=
  match h[i]? with
  | some (Cell.oper _ args _) =>
    match args[k]? with
    | some a =>
      match find h a with
      | some r => Except.ok r
      | none => Except.error Err.fuel
    | none => Except.error Err.badRef
  | _ => Except.error Err.badRef

/-- `Operation.make_equal_to(value)` from src/main.py: `self.find()` then
`_set_forwarded(value)` on the representative.  On an Operation
representative this sets its `forwarded` field; on a Constant representative
it runs the assertion of `Constant._set_forwarded` (the target must itself be
a Constant with an equal value) and changes nothing. -/
def make_equal_to (h : Heap) (i t : Nat) : Except Err Heap :=
  match find h i with
  | none => Except.error Err.fuel
  | some r =>
    match h[r]? with
    | some (Cell.const v) =>
      match h[t]? with
      | some (Cell.const w) =>
        if v = w then Except.ok h else Except.error Err.assertConst
      | _ => Except.error Err.assertConst
    | some (Cell.oper n args _) => Except.ok (h.set r (Cell.oper n args (some t)))
    | none => Except.error Err.badRef

/-- `eq_value(val0, val1)` from src/main.py: Constants compare by value,
everything else by reference identity (index equality). -/
def eq_value (h : Heap) (i j : Nat) : Bool :=
  match h[i]?, h[j]? with
  | some (Cell.const v), some (Cell.const w) => v == w
  | _, _ => i == j

/-- A raw builder argument: a Python non-`Value` (an int, to be wrapped in a
fresh Constant) or an existing value. -/
inductive RawArg where
  | int : Int → RawArg
  | val : Nat → RawArg
deriving DecidableEq, Repr

/-- `wraparg` from `Block.opbuilder`: non-Values are wrapped in a fresh
Constant (allocated at the end of the heap). -/
def wraparg (h : Heap) : RawArg → Heap × Nat
  | RawArg.int n => (h ++ [Cell.const n], h.length)
  | RawArg.val i => (h, i)

def wrapargs (h : Heap) : List RawArg → Heap × List Nat
  | [] => (h, [])
  | a :: rest =>
    let p := wraparg h a
    let q := wrapargs p.1 rest
    (q.1, p.2 :: q.2)

/-- `Block.opbuilder(opname)`'s `build`: wrap the raw arguments, allocate the
new Operation, append it to the block, and return it. -/
def build (opname : String) (h : Heap) (bb : Block) (args : List RawArg) :
    Heap × Block × Nat :=
  let p := wrapargs h args
  (p.1 ++ [Cell.oper opname p.2 none], bb ++ [p.1.length], p.1.length)

/-- Loop body of `constfold` from src/main.py, acting on the state
`(heap, opt_bb)` for one input operation. -/
def constfoldStep (st : Heap × Block) (op : Nat) : Except Err (Heap × Block) :=
  match st.1[op]? with
  | some (Cell.oper name _ _) =>
    if name = "add" then
      match argOf st.1 op 0, argOf st.1 op 1 with
      | Except.ok arg0, Except.ok arg1 =>
        match st.1[arg0]?, st.1[arg1]? with
        | some (Cell.const v0), some (Cell.const v1) =>
          (make_equal_to (st.1 ++ [Cell.const (v0 + v1)]) op st.1.length).map
            (fun h2 => (h2, st.2))
        | _, _ => Except.ok (st.1, st.2 ++ [op])
      | Except.error e, _ => Except.error e
      | _, Except.error e => Except.error e
    else Except.ok (st.1, st.2 ++ [op])
  | _ => Except.error Err.badRef

/-- `constfold(bb)` from src/main.py. -/
def constfold (h : Heap) (bb : Block) : Except Err (Heap × Block) :=
  List.foldlM constfoldStep (h, ([] : Block)) bb

/-- `find_prev_add_op(arg0, arg1, opt_bb)` from src/main.py: scan the already
emitted block for a prior `add` whose resolved arguments match pairwise. -/
def find_prev_add_op (h : Heap) (arg0 arg1 : Nat) : Block → Except Err (Option Nat)
  | [] => Except.ok none
  | o :: rest =>
    match h[o]? with
    | some (Cell.oper name _ _) =>
      if name = "add" then
        match argOf h o 0, argOf h o 1 with
        | Except.ok b0, Except.ok b1 =>
          if eq_value h arg0 b0 && eq_value h arg1 b1 then Except.ok (some o)
          else find_prev_add_op h arg0 arg1 rest
        | Except.error e, _ => Except.error e
        | _, Except.error e => Except.error e
      else find_prev_add_op h arg0 arg1 rest
    | _ => Except.error Err.badRef

/-- Loop body of `common_subexpr_elimination` from src/main.py. -/
def cseStep (st : Heap × Block) (op : Nat) : Except Err (Heap × Block) :=
  match st.1[op]? with
  | some (Cell.oper name _ _) =>
    if name = "add" then
      match argOf st.1 op 0, argOf st.1 op 1 with
      | Except.ok arg0, Except.ok arg1 =>
        match find_prev_add_op st.1 arg0 arg1 st.2 with
        | Except.ok (some prev) =>
          (make_equal_to st.1 op prev).map (fun h2 => (h2, st.2))
        | Except.ok none => Except.ok (st.1, st.2 ++ [op])
        | Except.error e => Except.error e
      | Except.error e, _ => Except.error e
      | _, Except.error e => Except.error e
    else Except.ok (st.1, st.2 ++ [op])
  | _ => Except.error Err.badRef

/-- `common_subexpr_elimination(bb)` from src/main.py. -/
def common_subexpr_elimination (h : Heap) (bb : Block) : Except Err (Heap × Block) :=
  List.foldlM cseStep (h, ([] : Block)) bb

/-- Loop body of `strength_reduce` from src/main.py. -/
def strength_reduceStep (st : Heap × Block) (op : Nat) : Except Err (Heap × Block) :=
  match st.1[op]? with
  | some (Cell.oper name _ _) =>
    if name = "add" then
      match argOf st.1 op 0, argOf st.1 op 1 with
      | Except.ok arg0, Except.ok arg1 =>
        if arg0 = arg1 then
          let b := build "lshift" st.1 st.2 [RawArg.val arg0, RawArg.int 1]
          (make_equal_to b.1 op b.2.2).map (fun h2 => (h2, b.2.1))
        else Except.ok (st.1, st.2 ++ [op])
      | Except.error e, _ => Except.error e
      | _, Except.error e => Except.error e
    else Except.ok (st.1, st.2 ++ [op])
  | _ => Except.error Err.badRef

/-- `strength_reduce(bb)` from src/main.py. -/
def strength_reduce (h : Heap) (bb : Block) : Except Err (Heap × Block) :=
  List.foldlM strength_reduceStep (h, ([] : Block)) bb

/-- Loop body of the fused pass `optimise` from src/main.py: constant
folding, then CSE, then strength reduction, then the two additive-identity
checks (each of which allocates a fresh `Constant(0)` exactly as the Python
expression `eq_value(arg, Constant(0))` does), falling through to unchanged
emission. -/
def optimiseStep (st : Heap × Block) (op : Nat) : Except Err (Heap × Block) :=
  match st.1[op]? with
  | some (Cell.oper name _ _) =>
    if name = "add" then
      match argOf st.1 op 0, argOf st.1 op 1 with
      | Except.ok arg0, Except.ok arg1 =>
        match st.1[arg0]?, st.1[arg1]? with
        | some (Cell.const v0), some (Cell.const v1) =>
          (make_equal_to (st.1 ++ [Cell.const (v0 + v1)]) op st.1.length).map
            (fun h2 => (h2, st.2))
        | _, _ =>
          match find_prev_add_op st.1 arg0 arg1 st.2 with
          | Except.ok (some prev) =>
            (make_equal_to st.1 op prev).map (fun h2 => (h2, st.2))
          | Except.ok none =>
            if arg0 = arg1 then
              let b := build "lshift" st.1 st.2 [RawArg.val arg0, RawArg.int 1]
              (make_equal_to b.1 op b.2.2).map (fun h2 => (h2, b.2.1))
            else
              let h2 := st.1 ++ [Cell.const 0]
              if eq_value h2 arg0 st.1.length then
                (make_equal_to h2 op arg1).map (fun h3 => (h3, st.2))
              else
                let h3 := h2 ++ [Cell.const 0]
                if eq_value h3 arg1 h2.length then
                  (make_equal_to h3 op arg0).map (fun h4 => (h4, st.2))
                else Except.ok (h3, st.2 ++ [op])
          | Except.error e => Except.error e
      | Except.error e, _ => Except.error e
      | _, Except.error e => Except.error e
    else Except.ok (st.1, st.2 ++ [op])
  | _ => Except.error Err.badRef

/-- `optimise(bb)` from src/main.py (the fused single pass). -/
def optimise (h : Heap) (bb : Block) : Except Err (Heap × Block) :=
  List.foldlM optimiseStep (h, ([] : Block)) bb

/-- `arg_to_str(arg)` inside `bb_to_str` from src/main.py: a Constant renders
as its literal value, anything else by looking up its assigned name. -/
def arg_to_str (h : Heap) (varnames : List (Nat × String)) (a : Nat) : Option String :=
  match h[a]? with
  | some (Cell.const v) => some (toString v)
  | _ => List.lookup a varnames

/-- Rendering of the argument list of one operation in `bb_to_str`: each
stored argument is first resolved through `find` (the Python code calls
`op.arg(i)`), then printed with `arg_to_str`. -/
def render_args (h : Heap) (varnames : List (Nat × String)) : List Nat → Option (List String)
  | [] => some []
  | a :: rest =>
    match find h a with
    | none => none
    | some r =>
      match arg_to_str h varnames r with
      | none => none
      | some s => (render_args h varnames rest).map (fun l => s :: l)

/-- The loop of `bb_to_str` from src/main.py, producing one rendered line per
operation; `pfx` is the Python `varprefix`. -/
def bb_to_str_go (h : Heap) (pfx : String) : Block → Nat → List (Nat × String) → Option (List String)
  | [], _, _ => some []
  | op :: rest, index, varnames =>
    let var := pfx ++ toString index
    let varnames1 := (op, var) :: varnames
    match h[op]? with
    | some (Cell.oper name args _) =>
      match render_args h varnames1 args with
      | none => none
      | some strs =>
        (bb_to_str_go h pfx rest (index + 1) varnames1).map
          (fun res => (var ++ " = " ++ name ++ "(" ++ String.intercalate ", " strs ++ ")") :: res)
    | _ => none

/-- `bb_to_str(bb, varprefix)` from src/main.py. -/
def bb_to_str (h : Heap) (bb : Block) (pfx : String) : Option String :=
  (bb_to_str_go h pfx bb 0 []).map (String.intercalate "\n")

/-- Run a pass and render its output block: `bb_to_str(pass(bb), pfx)`;
`none` when the pass itself fails. -/
def runAndRender (pass : Heap → Block → Except Err (Heap × Block))
    (h : Heap) (bb : Block) (pfx : String) : Option String :=
  match pass h bb with
  | Except.ok st => bb_to_str st.1 st.2 pfx
  | Except.error _ => none

/-- The constant-folding test block from src/main.py
(`test_constfold_two_ops`): `v0=getarg(0); v1=add(5,4); v2=add(v1,10);
v3=add(v2,v0)`, built through the builder interface. -/
def cfInput : Heap × Block :=
  let b0 := build "getarg" [] [] [RawArg.int 0]
  let b1 := build "add" b0.1 b0.2.1 [RawArg.int 5, RawArg.int 4]
  let b2 := build "add" b1.1 b1.2.1 [RawArg.val b1.2.2, RawArg.int 10]
  let b3 := build "add" b2.1 b2.2.1 [RawArg.val b2.2.2, RawArg.val b0.2.2]
  (b3.1, b3.2.1)

/-- The CSE test block from src/main.py (`test_cse`): `a=getarg(0);
b=getarg(1); v1=add(b,17); v2=mul(a,v1); v3=add(b,17); v4=add(v2,v3)`. -/
def cseInput : Heap × Block :=
  let b0 := build "getarg" [] [] [RawArg.int 0]
  let b1 := build "getarg" b0.1 b0.2.1 [RawArg.int 1]
  let b2 := build "add" b1.1 b1.2.1 [RawArg.val b1.2.2, RawArg.int 17]
  let b3 := build "mul" b2.1 b2.2.1 [RawArg.val b0.2.2, RawArg.val b2.2.2]
  let b4 := build "add" b3.1 b3.2.1 [RawArg.val b1.2.2, RawArg.int 17]
  let b5 := build "add" b4.1 b4.2.1 [RawArg.val b3.2.2, RawArg.val b4.2.2]
  (b5.1, b5.2.1)

/-- The strength-reduction test block from src/main.py
(`test_strength_reduce`): `v0=getarg(0); v1=add(v0,v0)`. -/
def srInput : Heap × Block :=
  let b0 := build "getarg" [] [] [RawArg.int 0]
  let b1 := build "add" b0.1 b0.2.1 [RawArg.val b0.2.2, RawArg.val b0.2.2]
  (b1.1, b1.2.1)

/-- The fused-pass test block from src/main.py (`test_single_pass`, third
scenario): `v0=getarg(0); v1=add(16,-16); v2=add(v0,v1); v3=add(0,v2);
v4=add(v2,v3)`. -/
def fusedInput : Heap × Block :=
  let b0 := build "getarg" [] [] [RawArg.int 0]
  let b1 := build "add" b0.1 b0.2.1 [RawArg.int 16, RawArg.int (-16)]
  let b2 := build "add" b1.1 b1.2.1 [RawArg.val b0.2.2, RawArg.val b1.2.2]
  let b3 := build "add" b2.1 b2.2.1 [RawArg.int 0, RawArg.val b2.2.2]
  let b4 := build "add" b3.1 b3.2.1 [RawArg.val b2.2.2, RawArg.val b3.2.2]
  (b4.1, b4.2.1)

/-- A block `a=getarg(0); b=getarg(1); v1=add(a,b); v2=add(b,a)` probing the
order-sensitivity of CSE: the second add has the first add's arguments in
swapped order. -/
def swapInput : Heap × Block :=
  let b0 := build "getarg" [] [] [RawArg.int 0]
  let b1 := build "getarg" b0.1 b0.2.1 [RawArg.int 1]
  let b2 := build "add" b1.1 b1.2.1 [RawArg.val b0.2.2, RawArg.val b1.2.2]
  let b3 := build "add" b2.1 b2.2.1 [RawArg.val b1.2.2, RawArg.val b0.2.2]
  (b3.1, b3.2.1)

/-- A block `v0=add(5,5)` whose only add has two distinct but equal-valued
Constant arguments: strength reduction must not fire on it. -/
def twoConstInput : Heap × Block :=
  let b0 := build "add" [] [] [RawArg.int 5, RawArg.int 5]
  (b0.1, b0.2.1)

/-! ### Basic lemmas about the union-find layer -/

theorem lt_length_of_cell {h : Heap} {i : Nat} {c : Cell} (hc : h[i]? = some c) :
    i < h.length :=
  (List.getElem?_eq_some.mp hc).1

theorem cell_append {h : Heap} {i : Nat} {c : Cell} (l : Heap) (hc : h[i]? = some c) :
    (h ++ l)[i]? = some c := by
  rw [List.getElem?_append, if_pos (lt_length_of_cell hc)]; exact hc

theorem findFuel_mono {h : Heap} {f f' i r : Nat} (hle : f ≤ f')
    (hf : findFuel h f i = some r) : findFuel h f' i = some r := by
  induction f generalizing f' i with
  | zero => simp [findFuel] at hf
  | succ f ih =>
    obtain ⟨f', rfl⟩ : ∃ g, f' = g + 1 :=
      ⟨f' - 1, by omega⟩
    rw [findFuel] at hf ⊢
    match hc : h[i]? with
    | none => rw [hc] at hf; exact Option.noConfusion hf
    | some (Cell.const _) => rw [hc] at hf; exact hf
    | some (Cell.oper _ _ none) => rw [hc] at hf; exact hf
    | some (Cell.oper _ _ (some j)) => rw [hc] at hf; exact ih (by omega) hf

theorem findFuel_append {h : Heap} {f i r : Nat} (l : Heap)
    (hf : findFuel h f i = some r) : findFuel (h ++ l) f i = some r := by
  induction f generalizing i with
  | zero => simp [findFuel] at hf
  | succ f ih =>
    rw [findFuel] at hf ⊢
    match hc : h[i]? with
    | none => rw [hc] at hf; exact Option.noConfusion hf
    | some (Cell.const _) => rw [hc] at hf; rw [cell_append l hc]; exact hf
    | some (Cell.oper _ _ none) => rw [hc] at hf; rw [cell_append l hc]; exact hf
    | some (Cell.oper _ _ (some j)) => rw [hc] at hf; rw [cell_append l hc]; exact ih hf

theorem find_append {h : Heap} {i r : Nat} (l : Heap) (hf : find h i = some r) :
    find (h ++ l) i = some r :=
  findFuel_mono (by simp) (findFuel_append l hf)

/-- A terminal value: a Constant, or an Operation with no forward — exactly
the values `find` can return. -/
def Terminal (h : Heap) (r : Nat) : Prop :=
  (∃ v, h[r]? = some (Cell.const v)) ∨ ∃ n a, h[r]? = some (Cell.oper n a none)

theorem findFuel_terminal {h : Heap} {r f : Nat} (ht : Terminal h r) (hf : 1 ≤ f) :
    findFuel h f r = some r := by
  obtain ⟨f, rfl⟩ : ∃ g, f = g + 1 := ⟨f - 1, by omega⟩
  rcases ht with ⟨v, hc⟩ | ⟨n, a, hc⟩ <;> rw [findFuel, hc]

theorem find_terminal {h : Heap} {r : Nat} (ht : Terminal h r) : find h r = some r := by
  have hr : r < h.length := by
    rcases ht with ⟨v, hc⟩ | ⟨n, a, hc⟩ <;> exact lt_length_of_cell hc
  exact findFuel_terminal ht (by omega)

theorem find_unforwarded {h : Heap} {c : Nat} {n : String} {a : List Nat}
    (hc : h[c]? = some (Cell.oper n a none)) : find h c = some c :=
  find_terminal (Or.inr ⟨n, a, hc⟩)

theorem find_const {h : Heap} {c : Nat} {v : Int}
    (hc : h[c]? = some (Cell.const v)) : find h c = some c :=
  find_terminal (Or.inl ⟨v, hc⟩)

theorem find_fwd_terminal {h : Heap} {c t : Nat} {n : String} {a : List Nat}
    (hc : h[c]? = some (Cell.oper n a (some t))) (ht : Terminal h t) :
    find h c = some t := by
  have hct : c ≠ t := by
    rintro rfl
    rcases ht with ⟨v, hc'⟩ | ⟨n', a', hc'⟩ <;> rw [hc] at hc' <;> simp at hc'
  have hcl : c < h.length := lt_length_of_cell hc
  have htl : t < h.length := by
    rcases ht with ⟨v, hc'⟩ | ⟨n', a', hc'⟩ <;> exact lt_length_of_cell hc'
  obtain ⟨f, hf⟩ : ∃ g, h.length = g + 2 := ⟨h.length - 2, by omega⟩
  rw [find, hf, findFuel, hc]
  exact findFuel_terminal ht (by omega)

theorem findFuel_set_of_unforwarded {h : Heap} {c f i r : Nat} {n : String}
    {a : List Nat} {cc : Cell} (hc : h[c]? = some (Cell.oper n a none))
    (hf : findFuel h f i = some r) (hrc : r ≠ c) :
    findFuel (h.set c cc) f i = some r := by
  induction f generalizing i with
  | zero => simp [findFuel] at hf
  | succ f ih =>
    have hic : i ≠ c := by
      rintro rfl
      rw [findFuel, hc] at hf
      exact hrc (Option.some.inj hf).symm
    rw [findFuel] at hf ⊢
    rw [List.getElem?_set_ne (Ne.symm hic)]
    match hcell : h[i]? with
    | none => rw [hcell] at hf; exact Option.noConfusion hf
    | some (Cell.const _) => rw [hcell] at hf; exact hf
    | some (Cell.oper _ _ none) => rw [hcell] at hf; exact hf
    | some (Cell.oper _ _ (some j)) => rw [hcell] at hf; exact ih hf

theorem find_set_of_unforwarded {h : Heap} {c i r : Nat} {n : String}
    {a : List Nat} {cc : Cell} (hc : h[c]? = some (Cell.oper n a none))
    (hf : find h i = some r) (hrc : r ≠ c) :
    find (h.set c cc) i = some r := by
  rw [find, List.length_set]
  exact findFuel_set_of_unforwarded hc hf hrc

/-- `make_equal_to` on an un-forwarded Operation just sets its forward
pointer. -/
theorem make_equal_to_unforwarded {h : Heap} {c t : Nat} {n : String}
    {a : List Nat} (hc : h[c]? = some (Cell.oper n a none)) :
    make_equal_to h c t = Except.ok (h.set c (Cell.oper n a (some t))) := by
  rw [make_equal_to, find_unforwarded hc]
  simp [hc]

/-! ### Cycles and divergence of `find` -/

/-- The Python `while` loop of `Operation.find` starting at `i` never
terminates: no amount of fuel reaches a terminal value. -/
def Diverges (h : Heap) (i : Nat) : Prop :=
  ∀ fuel, findFuel h fuel i = none

theorem diverges_of_self_cycle {h : Heap} {i : Nat} {n : String} {a : List Nat}
    (hi : h[i]? = some (Cell.oper n a (some i))) : Diverges h i := by
  intro fuel
  induction fuel with
  | zero => rfl
  | succ f ih => rw [findFuel, hi]; exact ih

theorem diverges_of_two_cycle {h : Heap} {i j : Nat} {n m : String}
    {a b : List Nat} (hi : h[i]? = some (Cell.oper n a (some j)))
    (hj : h[j]? = some (Cell.oper m b (some i))) : Diverges h i := by
  intro fuel
  suffices hs : ∀ f, findFuel h f i = none ∧ findFuel h f j = none from (hs fuel).1
  intro f
  induction f with
  | zero => exact ⟨rfl, rfl⟩
  | succ f ih =>
    rw [findFuel, findFuel, hi, hj]
    exact ⟨ih.2, ih.1⟩

/-- The `forwarded` field of cell `i`, when it is a forwarded Operation. -/
def forwardOf (h : Heap) (i : Nat) : Option Nat :=
  match h[i]? with
  | some (Cell.oper _ _ (some j)) => some j
  | _ => none

/-- A decidable acyclicity certificate: `rank` strictly decreases along every
`forwarded` edge, and every edge stays inside the heap. -/
def rankOK (h : Heap) (rank : Nat → Nat) : Bool :=
  (List.range h.length).all (fun i =>
    match forwardOf h i with
    | some j => decide (rank j < rank i) && decide (j < h.length)
    | none => true)

theorem rankOK_spec {h : Heap} {rank : Nat → Nat} (hok : rankOK h rank = true)
    {i j : Nat} (hij : forwardOf h i = some j) (hi : i < h.length) :
    rank j < rank i ∧ j < h.length := by
  have hall := List.all_eq_true.mp hok i (List.mem_range.mpr hi)
  rw [hij] at hall
  simp at hall
  exact hall

theorem findFuel_of_rank {h : Heap} {rank : Nat → Nat}
    (hok : rankOK h rank = true) :
    ∀ n i, rank i ≤ n → i < h.length →
      ∃ r, findFuel h (rank i + 1) i = some r ∧ Terminal h r := by
  intro n
  induction n with
  | zero =>
    intro i hle hi
    obtain ⟨c, hc⟩ : ∃ c, h[i]? = some c := ⟨h[i], List.getElem?_eq_getElem hi⟩
    match c, hc with
    | Cell.const v, hc =>
      exact ⟨i, findFuel_terminal (Or.inl ⟨v, hc⟩) (by omega), Or.inl ⟨v, hc⟩⟩
    | Cell.oper nm a none, hc =>
      exact ⟨i, findFuel_terminal (Or.inr ⟨nm, a, hc⟩) (by omega), Or.inr ⟨nm, a, hc⟩⟩
    | Cell.oper nm a (some j), hc =>
      have hfwd : forwardOf h i = some j := by rw [forwardOf, hc]
      have := (rankOK_spec hok hfwd hi).1
      omega
  | succ n ih =>
    intro i hle hi
    obtain ⟨c, hc⟩ : ∃ c, h[i]? = some c := ⟨h[i], List.getElem?_eq_getElem hi⟩
    match c, hc with
    | Cell.const v, hc =>
      exact ⟨i, findFuel_terminal (Or.inl ⟨v, hc⟩) (by omega), Or.inl ⟨v, hc⟩⟩
    | Cell.oper nm a none, hc =>
      exact ⟨i, findFuel_terminal (Or.inr ⟨nm, a, hc⟩) (by omega), Or.inr ⟨nm, a, hc⟩⟩
    | Cell.oper nm a (some j), hc =>
      have hfwd : forwardOf h i = some j := by rw [forwardOf, hc]
      obtain ⟨hlt, hjl⟩ := rankOK_spec hok hfwd hi
      obtain ⟨r, hr, ht⟩ := ih j (by omega) hjl
      refine ⟨r, ?_, ht⟩
      rw [findFuel, hc]
      exact findFuel_mono (by omega) hr

/-- C7 counterexample input: the two-operation heap built by
`bb.dummy(1); bb.dummy(2)` through the builder interface. -/
def cycleHeap0 : Heap :=
  [Cell.const 1, Cell.oper "dummy" [0] none, Cell.const 2, Cell.oper "dummy" [2] none]

/-- The heap after `op1.make_equal_to(op3)` on `cycleHeap0`. -/
def cycleHeap1 : Heap :=
  [Cell.const 1, Cell.oper "dummy" [0] (some 3), Cell.const 2, Cell.oper "dummy" [2] none]

/-- The heap after the further `op3.make_equal_to(op1)`: the forward chain is
now cyclic. -/
def cycleHeap2 : Heap :=
  [Cell.const 1, Cell.oper "dummy" [0] (some 3), Cell.const 2, Cell.oper "dummy" [2] (some 1)]

/-- C7, counterexample: the claim says `canonicalize(v)` terminates for every
Value, but two public `make_equal_to` calls produce a heap on which `find`
diverges for every amount of fuel. -/
theorem C7_counterexample_find_diverges :
    make_equal_to cycleHeap0 1 3 = Except.ok cycleHeap1
    ∧ make_equal_to cycleHeap1 3 1 = Except.ok cycleHeap2
    ∧ Diverges cycleHeap2 1 ∧ find cycleHeap2 1 = none := by
  refine ⟨by rfl, by rfl, ?_, ?_⟩
  · exact diverges_of_two_cycle
      (show cycleHeap2[1]? = some (Cell.oper "dummy" [0] (some 3)) by decide)
      (show cycleHeap2[3]? = some (Cell.oper "dummy" [2] (some 1)) by decide)
  · exact diverges_of_two_cycle
      (show cycleHeap2[1]? = some (Cell.oper "dummy" [0] (some 3)) by decide)
      (show cycleHeap2[3]? = some (Cell.oper "dummy" [2] (some 1)) by decide) _

/-- C7 (amended): a Constant canonicalizes to itself, and on any heap with a
decreasing rank certificate for the forward edges (acyclicity — the state the
union operations are intended to preserve) `canonicalize` of any Operation
terminates at a terminal value, within `rank i` forward steps; with the
default fuel `h.length` this is the program's `find`. -/
theorem C7_canonicalize_terminates :
    (∀ (h : Heap) (i : Nat) (v : Int), h[i]? = some (Cell.const v) → find h i = some i)
    ∧ (∀ (h : Heap) (rank : Nat → Nat) (i : Nat), rankOK h rank = true →
        i < h.length → ∃ r, findFuel h (rank i + 1) i = some r ∧ Terminal h r)
    ∧ (∀ (h : Heap) (rank : Nat → Nat) (i : Nat), rankOK h rank = true →
        i < h.length → rank i + 1 ≤ h.length →
        ∃ r, find h i = some r ∧ Terminal h r) := by
  refine ⟨fun h i v hc => find_const hc,
    fun h rank i hok hi => findFuel_of_rank hok (rank i) i le_rfl hi,
    fun h rank i hok hi hfl => ?_⟩
  obtain ⟨r, hr, ht⟩ := findFuel_of_rank hok (rank i) i le_rfl hi
  exact ⟨r, findFuel_mono hfl hr, ht⟩

/-- Witness for C7 (amended) at a concrete two-cell heap with the identity
rank certificate. -/
theorem C7_canonicalize_terminates_witness :
    ∃ r, find [Cell.const 6, Cell.oper "dummy" [] (some 0)] 1 = some r
      ∧ Terminal [Cell.const 6, Cell.oper "dummy" [] (some 0)] r :=
  C7_canonicalize_terminates.2.2 [Cell.const 6, Cell.oper "dummy" [] (some 0)]
    (fun i => i) 1 (by decide) (by decide) (by decide)

/-- C10 input: the heap built by `bb.dummy(1)`. -/
def selfHeap0 : Heap := [Cell.const 1, Cell.oper "dummy" [0] none]

/-- The heap after `op.make_equal_to(op)` on the un-forwarded operation of
`selfHeap0`: the operation now forwards to itself. -/
def selfHeap1 : Heap := [Cell.const 1, Cell.oper "dummy" [0] (some 1)]

/-- C10: `make_equal_to(op, op)` on an un-forwarded Operation is accepted by
the public interface (no guard raises), creates a cyclic forward chain, and
every subsequent `find` on that operation fails to terminate (no fuel bound
makes the Python loop return). -/
theorem C10_self_union_creates_cycle :
    make_equal_to selfHeap0 1 1 = Except.ok selfHeap1
    ∧ selfHeap1[1]? = some (Cell.oper "dummy" [0] (some 1))
    ∧ Diverges selfHeap1 1 ∧ find selfHeap1 1 = none := by
  refine ⟨by rfl, by decide, ?_, ?_⟩
  · exact diverges_of_self_cycle
      (show selfHeap1[1]? = some (Cell.oper "dummy" [0] (some 1)) by decide)
  · exact diverges_of_self_cycle
      (show selfHeap1[1]? = some (Cell.oper "dummy" [0] (some 1)) by decide) _

/-! ### C5: unioning onto a Constant representative -/

/-- C5 (amended): when the representative of `op` is a Constant with value
`v`, `make_equal_to(op, target)` raises the internal-consistency assertion
exactly when `target` is not itself a Constant cell with value `v`; when
`target` is such a Constant the call returns the heap unchanged (so every
`canonicalize` result is left intact and no error is raised). -/
theorem C5_make_equal_to_const_rep (h : Heap) (op r t : Nat) (v : Int)
    (hfind : find h op = some r) (hr : h[r]? = some (Cell.const v)) :
    (make_equal_to h op t = Except.error Err.assertConst ↔ h[t]? ≠ some (Cell.const v))
    ∧ (h[t]? = some (Cell.const v) → make_equal_to h op t = Except.ok h) := by
  rw [make_equal_to, hfind]
  constructor
  · constructor
    · intro he ht
      rw [ht] at he
      simp [hr] at he
    · intro hne
      match ht : h[t]? with
      | some (Cell.const w) =>
        have hvw : v ≠ w := fun hvw => hne (by rw [ht, hvw])
        simp [hr, ht, hvw]
      | some (Cell.oper nm a f) => simp [hr, ht]
      | none => simp [hr, ht]
  · intro ht
    simp [hr, ht]

/-- Witness for C5 (amended): re-unioning an operation whose representative
is `Constant 6` with that same Constant succeeds and leaves the heap
unchanged. -/
theorem C5_make_equal_to_const_rep_witness :
    make_equal_to [Cell.const 6, Cell.oper "dummy" [] (some 0)] 1 0
      = Except.ok [Cell.const 6, Cell.oper "dummy" [] (some 0)] :=
  (C5_make_equal_to_const_rep [Cell.const 6, Cell.oper "dummy" [] (some 0)]
    1 0 0 6 (by decide) (by decide)).2 (by decide)

/-- C5, counterexample: `op2`'s representative is `Constant 6` and the target
`op1` canonicalizes to that same `Constant 6`, so by the claim the call must
not raise; the code still raises the assertion because the target is not
itself a Constant. -/
theorem C5_counterexample_target_canonicalizes :
    find [Cell.const 6, Cell.oper "d1" [] (some 0), Cell.oper "d2" [] (some 0)] 2 = some 0
    ∧ ([Cell.const 6, Cell.oper "d1" [] (some 0), Cell.oper "d2" [] (some 0)] : Heap)[0]?
        = some (Cell.const 6)
    ∧ find [Cell.const 6, Cell.oper "d1" [] (some 0), Cell.oper "d2" [] (some 0)] 1 = some 0
    ∧ make_equal_to [Cell.const 6, Cell.oper "d1" [] (some 0), Cell.oper "d2" [] (some 0)] 2 1
        = Except.error Err.assertConst := by
  refine ⟨by decide, by decide, by decide, by rfl⟩

/-! ### C6: rendering -/

/-- Modelled from the spec: the spec's description of rendering says the
stored arguments of the output block are rendered directly and that resolving
through canonicalization "is *not* performed"; this renderer follows those
words — identical to `render_args` except that stored arguments are not
passed through `find`. -/
def render_args_raw (h : Heap) (varnames : List (Nat × String)) : List Nat → Option (List String)
  | [] => some []
  | a :: rest =>
    match arg_to_str h varnames a with
    | none => none
    | some s => (render_args_raw h varnames rest).map (fun l => s :: l)

/-- Modelled from the spec: the block renderer with raw (un-canonicalized)
argument rendering. -/
def bb_to_str_raw_go (h : Heap) (pfx : String) : Block → Nat → List (Nat × String) → Option (List String)
  | [], _, _ => some []
  | op :: rest, index, varnames =>
    let var := pfx ++ toString index
    let varnames1 := (op, var) :: varnames
    match h[op]? with
    | some (Cell.oper name args _) =>
      match render_args_raw h varnames1 args with
      | none => none
      | some strs =>
        (bb_to_str_raw_go h pfx rest (index + 1) varnames1).map
          (fun res => (var ++ " = " ++ name ++ "(" ++ String.intercalate ", " strs ++ ")") :: res)
    | _ => none

/-- Modelled from the spec: `render(block, name_prefix)` without
canonicalization of arguments. -/
def bb_to_str_raw (h : Heap) (bb : Block) (pfx : String) : Option String :=
  (bb_to_str_raw_go h pfx bb 0 []).map (String.intercalate "\n")

theorem bb_to_str_go_lines (h : Heap) (pfx : String) :
    ∀ (bb : Block) (start : Nat) (vn : List (Nat × String)) (lines : List String),
      bb_to_str_go h pfx bb start vn = some lines →
      lines.length = bb.length ∧
      ∀ i, i < bb.length → ∃ op nm args f s, bb[i]? = some op
        ∧ h[op]? = some (Cell.oper nm args f)
        ∧ lines[i]? = some (pfx ++ toString (start + i) ++ " = " ++ nm ++ "(" ++ s ++ ")") := by
  intro bb
  induction bb with
  | nil =>
    intro start vn lines hgo
    rw [bb_to_str_go] at hgo
    cases hgo
    exact ⟨rfl, fun i hi => absurd hi (by simp)⟩
  | cons op rest ih =>
    intro start vn lines hgo
    rw [bb_to_str_go] at hgo
    match hc : h[op]? with
    | none => rw [hc] at hgo; exact Option.noConfusion hgo
    | some (Cell.const v) => rw [hc] at hgo; exact Option.noConfusion hgo
    | some (Cell.oper nm args f) =>
      rw [hc] at hgo
      dsimp only at hgo
      match hr : render_args h ((op, pfx ++ toString start) :: vn) args with
      | none => rw [hr] at hgo; exact Option.noConfusion hgo
      | some strs =>
        rw [hr] at hgo
        dsimp only at hgo
        match hrec : bb_to_str_go h pfx rest (start + 1) ((op, pfx ++ toString start) :: vn) with
        | none => rw [hrec] at hgo; exact Option.noConfusion hgo
        | some ls =>
          rw [hrec] at hgo
          cases hgo
          obtain ⟨hlen, hlines⟩ := ih (start + 1) _ ls hrec
          refine ⟨by simp [hlen], fun i hi => ?_⟩
          match i with
          | 0 =>
            exact ⟨op, nm, args, f, String.intercalate ", " strs, by simp, hc, by simp⟩
          | i + 1 =>
            obtain ⟨op', nm', args', f', s', hop', hc', hl'⟩ := hlines i (by simpa using hi)
            refine ⟨op', nm', args', f', s', by simpa using hop', hc', ?_⟩
            have : start + 1 + i = start + (i + 1) := by omega
            rw [← this]
            simpa using hl'

/-- C6 (amended): rendering assigns each Operation in block order the fresh
name `pfx ++ index` and prints one line per operation in the form
`name = opcode(arguments)`; each stored argument is first resolved through
canonicalization (`find`) and then rendered — a Constant representative as
its literal scalar value, any other representative by name lookup. -/
theorem C6_rendering :
    (∀ (h : Heap) (pfx : String) (bb : Block) (lines : List String),
      bb_to_str_go h pfx bb 0 [] = some lines →
      bb_to_str h bb pfx = some (String.intercalate "\n" lines)
      ∧ lines.length = bb.length
      ∧ ∀ i, i < bb.length → ∃ op nm args f s, bb[i]? = some op
          ∧ h[op]? = some (Cell.oper nm args f)
          ∧ lines[i]? = some (pfx ++ toString i ++ " = " ++ nm ++ "(" ++ s ++ ")"))
    ∧ (∀ (h : Heap) (vn : List (Nat × String)) (args : List Nat) (strs : List String),
      render_args h vn args = some strs →
      ∀ k, k < args.length → ∃ a r s, args[k]? = some a ∧ find h a = some r
        ∧ arg_to_str h vn r = some s ∧ strs[k]? = some s)
    ∧ (∀ (h : Heap) (vn : List (Nat × String)) (a : Nat) (v : Int),
      h[a]? = some (Cell.const v) → arg_to_str h vn a = some (toString v)) := by
  refine ⟨fun h pfx bb lines hgo => ?_, fun h vn args => ?_, fun h vn a v hc => ?_⟩
  · obtain ⟨hlen, hl⟩ := bb_to_str_go_lines h pfx bb 0 [] lines hgo
    refine ⟨by rw [bb_to_str, hgo]; rfl, hlen, fun i hi => ?_⟩
    obtain ⟨op, nm, args, f, s, h1, h2, h3⟩ := hl i hi
    exact ⟨op, nm, args, f, s, h1, h2, by simpa using h3⟩
  · induction args with
    | nil =>
      intro strs _ k hk
      exact absurd hk (by simp)
    | cons a rest ih =>
      intro strs hr k hk
      rw [render_args] at hr
      match hf : find h a with
      | none => rw [hf] at hr; exact Option.noConfusion hr
      | some r =>
        rw [hf] at hr
        dsimp only at hr
        match hs : arg_to_str h vn r with
        | none => rw [hs] at hr; exact Option.noConfusion hr
        | some s =>
          rw [hs] at hr
          dsimp only at hr
          match hrec : render_args h vn rest with
          | none => rw [hrec] at hr; exact Option.noConfusion hr
          | some ls =>
            rw [hrec] at hr
            cases hr
            match k with
            | 0 => exact ⟨a, r, s, by simp, hf, hs, by simp⟩
            | k + 1 =>
              obtain ⟨a', r', s', h1, h2, h3, h4⟩ := ih ls hrec k (by simpa using hk)
              exact ⟨a', r', s', by simpa using h1, h2, h3, by simpa using h4⟩
  · rw [arg_to_str, hc]

/-- Witness for C6 (amended), at the optimized CSE example block. -/
theorem C6_rendering_witness :
    bb_to_str
      [Cell.const 0, Cell.oper "getarg" [0] none, Cell.const 1,
       Cell.oper "getarg" [2] none, Cell.const 17, Cell.oper "add" [3, 4] none,
       Cell.oper "mul" [1, 5] none, Cell.const 17, Cell.oper "add" [3, 7] (some 5),
       Cell.oper "add" [6, 8] none]
      [1, 3, 5, 6, 9] "r"
      = some (String.intercalate "\n"
          ["r0 = getarg(0)", "r1 = getarg(1)", "r2 = add(r1, 17)",
           "r3 = mul(r0, r2)", "r4 = add(r3, r2)"]) :=
  (C6_rendering.1
    [Cell.const 0, Cell.oper "getarg" [0] none, Cell.const 1,
     Cell.oper "getarg" [2] none, Cell.const 17, Cell.oper "add" [3, 4] none,
     Cell.oper "mul" [1, 5] none, Cell.const 17, Cell.oper "add" [3, 7] (some 5),
     Cell.oper "add" [6, 8] none]
    "r" [1, 3, 5, 6, 9]
    ["r0 = getarg(0)", "r1 = getarg(1)", "r2 = add(r1, 17)",
     "r3 = mul(r0, r2)", "r4 = add(r3, r2)"] (by rfl)).1

/-- C6, counterexample: on the CSE-optimized block the final operation's raw
stored argument is the dropped `add` (heap index 8), which has no assigned
name; the claimed raw rendering therefore fails, while the code's rendering
succeeds by canonicalizing that argument to the previously emitted `add` and
printing its name `r2` — so the forward chain is followed during
rendering, contrary to the claim. -/
theorem C6_counterexample_rendering_resolves :
    common_subexpr_elimination cseInput.1 cseInput.2
      = Except.ok
          ([Cell.const 0, Cell.oper "getarg" [0] none, Cell.const 1,
            Cell.oper "getarg" [2] none, Cell.const 17, Cell.oper "add" [3, 4] none,
            Cell.oper "mul" [1, 5] none, Cell.const 17, Cell.oper "add" [3, 7] (some 5),
            Cell.oper "add" [6, 8] none],
           [1, 3, 5, 6, 9])
    ∧ bb_to_str
        [Cell.const 0, Cell.oper "getarg" [0] none, Cell.const 1,
         Cell.oper "getarg" [2] none, Cell.const 17, Cell.oper "add" [3, 4] none,
         Cell.oper "mul" [1, 5] none, Cell.const 17, Cell.oper "add" [3, 7] (some 5),
         Cell.oper "add" [6, 8] none]
        [1, 3, 5, 6, 9] "r"
        = some "r0 = getarg(0)\nr1 = getarg(1)\nr2 = add(r1, 17)\nr3 = mul(r0, r2)\nr4 = add(r3, r2)"
    ∧ bb_to_str_raw
        [Cell.const 0, Cell.oper "getarg" [0] none, Cell.const 1,
         Cell.oper "getarg" [2] none, Cell.const 17, Cell.oper "add" [3, 4] none,
         Cell.oper "mul" [1, 5] none, Cell.const 17, Cell.oper "add" [3, 7] (some 5),
         Cell.oper "add" [6, 8] none]
        [1, 3, 5, 6, 9] "r" = none :=
  ⟨by rfl, by rfl, by rfl⟩

/-! ### Characterization of the pass steps -/

theorem argOf_eq {h : Heap} {c k a r : Nat} {n : String} {args : List Nat}
    {f : Option Nat} (hc : h[c]? = some (Cell.oper n args f))
    (ha : args[k]? = some a) (hf : find h a = some r) :
    argOf h c k = Except.ok r := by
  rw [argOf, hc]
  dsimp only
  rw [ha]
  dsimp only
  rw [hf]

theorem argOf_ok {h : Heap} {c k r : Nat} (hk : argOf h c k = Except.ok r) :
    ∃ n args f a, h[c]? = some (Cell.oper n args f) ∧ args[k]? = some a
      ∧ find h a = some r := by
  rw [argOf] at hk
  match hc : h[c]? with
  | none => rw [hc] at hk; exact Except.noConfusion hk
  | some (Cell.const v) => rw [hc] at hk; exact Except.noConfusion hk
  | some (Cell.oper n args f) =>
    rw [hc] at hk
    dsimp only at hk
    match ha : args[k]? with
    | none => rw [ha] at hk; exact Except.noConfusion hk
    | some a =>
      rw [ha] at hk
      dsimp only at hk
      match hf : find h a with
      | none => rw [hf] at hk; exact Except.noConfusion hk
      | some r' => rw [hf] at hk; cases hk; exact ⟨n, args, f, a, rfl, ha, hf⟩

/-- The constant-folding branch shared by `constfoldStep` and `optimiseStep`:
when the current add is un-forwarded and both resolved arguments are
Constants, the op is unioned to a fresh Constant holding the sum and is not
emitted. -/
theorem fold_branch_result {h : Heap} {c : Nat} {args : List Nat} (v0 v1 : Int)
    (hc : h[c]? = some (Cell.oper "add" args none)) :
    make_equal_to (h ++ [Cell.const (v0 + v1)]) c h.length
      = Except.ok ((h ++ [Cell.const (v0 + v1)]).set c (Cell.oper "add" args (some h.length)))
    ∧ find ((h ++ [Cell.const (v0 + v1)]).set c (Cell.oper "add" args (some h.length))) c
        = some h.length
    ∧ ((h ++ [Cell.const (v0 + v1)]).set c
        (Cell.oper "add" args (some h.length)))[h.length]?
        = some (Cell.const (v0 + v1)) := by
  have hcl : c < h.length := lt_length_of_cell hc
  have hc1 : (h ++ [Cell.const (v0 + v1)])[c]? = some (Cell.oper "add" args none) :=
    cell_append _ hc
  have hnew : ((h ++ [Cell.const (v0 + v1)]).set c
      (Cell.oper "add" args (some h.length)))[h.length]? = some (Cell.const (v0 + v1)) := by
    rw [List.getElem?_set_ne (by omega), List.getElem?_concat_length]
  refine ⟨make_equal_to_unforwarded hc1, ?_, hnew⟩
  have hcset : ((h ++ [Cell.const (v0 + v1)]).set c
      (Cell.oper "add" args (some h.length)))[c]?
      = some (Cell.oper "add" args (some h.length)) := by
    rw [List.getElem?_set_eq]
    simp
    omega
  exact find_fwd_terminal hcset (Or.inl ⟨v0 + v1, hnew⟩)

/-- C2: per operation, `constfold` folds an `add` whose two resolved
arguments are both Constants — unioning it to a fresh Constant holding the
sum, emitting nothing — and emits every other operation unchanged (non-`add`
opcodes, and `add`s with a non-Constant resolved argument); on the concrete
block `v0=getarg(0); v1=add(5,4); v2=add(v1,10); v3=add(v2,v0)` it produces
exactly `r0 = getarg(0); r1 = add(19, r0)`. -/
theorem C2_constfold_characterization :
    (∀ (h : Heap) (out : Block) (c : Nat) (name : String) (args : List Nat)
      (f : Option Nat), h[c]? = some (Cell.oper name args f) → name ≠ "add" →
      constfoldStep (h, out) c = Except.ok (h, out ++ [c]))
    ∧ (∀ (h : Heap) (out : Block) (c a0 a1 : Nat) (args : List Nat) (v0 v1 : Int),
      h[c]? = some (Cell.oper "add" args none) →
      argOf h c 0 = Except.ok a0 → argOf h c 1 = Except.ok a1 →
      h[a0]? = some (Cell.const v0) → h[a1]? = some (Cell.const v1) →
      constfoldStep (h, out) c
        = Except.ok ((h ++ [Cell.const (v0 + v1)]).set c
            (Cell.oper "add" args (some h.length)), out)
      ∧ find ((h ++ [Cell.const (v0 + v1)]).set c
          (Cell.oper "add" args (some h.length))) c = some h.length
      ∧ ((h ++ [Cell.const (v0 + v1)]).set c
          (Cell.oper "add" args (some h.length)))[h.length]?
          = some (Cell.const (v0 + v1)))
    ∧ (∀ (h : Heap) (out : Block) (c a0 a1 : Nat) (args : List Nat) (f : Option Nat),
      h[c]? = some (Cell.oper "add" args f) →
      argOf h c 0 = Except.ok a0 → argOf h c 1 = Except.ok a1 →
      ((∀ v0 : Int, h[a0]? ≠ some (Cell.const v0))
        ∨ (∀ v1 : Int, h[a1]? ≠ some (Cell.const v1))) →
      constfoldStep (h, out) c = Except.ok (h, out ++ [c]))
    ∧ runAndRender constfold cfInput.1 cfInput.2 "r"
        = some "r0 = getarg(0)\nr1 = add(19, r0)" := by
  refine ⟨?_, ?_, ?_, by rfl⟩
  · intro h out c name args f hc hname
    simp [constfoldStep, hc, hname]
  · intro h out c a0 a1 args v0 v1 hc harg0 harg1 ha0 ha1
    obtain ⟨hmk, hfind, hnew⟩ := fold_branch_result v0 v1 hc
    refine ⟨?_, hfind, hnew⟩
    simp only [constfoldStep, hc, harg0, harg1, ha0, ha1]
    rw [hmk]
    rfl
  · intro h out c a0 a1 args f hc harg0 harg1 hor
    simp only [constfoldStep, hc, harg0, harg1]
    split
    · split
      · rename_i v0 v1 hv0 hv1
        rcases hor with hne | hne
        · exact absurd hv0 (hne v0)
        · exact absurd hv1 (hne v1)
      · rfl
    · rfl

/-- Witness for C2 at concrete inputs: a non-`add` operation, a foldable
`add(2,3)`, and an `add` with an Operation argument, each handled as the
theorem states. -/
theorem C2_constfold_characterization_witness :
    constfoldStep ([Cell.const 7, Cell.oper "getarg" [0] none], []) 1
      = Except.ok ([Cell.const 7, Cell.oper "getarg" [0] none], [1])
    ∧ constfoldStep ([Cell.const 2, Cell.const 3, Cell.oper "add" [0, 1] none], []) 2
      = Except.ok ([Cell.const 2, Cell.const 3, Cell.oper "add" [0, 1] (some 3),
          Cell.const 5], [])
    ∧ constfoldStep
        ([Cell.const 0, Cell.oper "getarg" [0] none, Cell.oper "add" [1, 1] none], []) 2
      = Except.ok
        ([Cell.const 0, Cell.oper "getarg" [0] none, Cell.oper "add" [1, 1] none], [2]) := by
  refine ⟨?_, ?_, ?_⟩
  · exact C2_constfold_characterization.1 _ [] 1 "getarg" [0] none (by decide) (by decide)
  · exact (C2_constfold_characterization.2.1 _ [] 2 0 1 [0, 1] 2 3 (by decide)
      (by rfl) (by rfl) (by decide) (by decide)).1
  · exact C2_constfold_characterization.2.2.1 _ [] 2 1 1 [1, 1] none (by decide)
      (by rfl) (by rfl)
      (Or.inl (fun v0 hv => Cell.noConfusion (Option.some.inj hv)))

theorem findFuel_cell {h : Heap} {f i r : Nat} (hf : findFuel h f i = some r) :
    ∃ c, h[r]? = some c := by
  induction f generalizing i with
  | zero => exact Option.noConfusion hf
  | succ f ih =>
    rw [findFuel] at hf
    match hc : h[i]? with
    | none => rw [hc] at hf; exact Option.noConfusion hf
    | some (Cell.const v) => rw [hc] at hf; cases hf; exact ⟨_, hc⟩
    | some (Cell.oper n a none) => rw [hc] at hf; cases hf; exact ⟨_, hc⟩
    | some (Cell.oper n a (some j)) => rw [hc] at hf; exact ih hf

/-- The strength-reduction branch shared by `strength_reduceStep` and
`optimiseStep`: the heap after allocating `Constant(1)` and the new `lshift`
operation and forwarding the original add to it. -/
theorem lshift_branch_result {h : Heap} {c : Nat} (a0 : Nat) {args : List Nat}
    (hc : h[c]? = some (Cell.oper "add" args none)) :
    make_equal_to ((h ++ [Cell.const 1]) ++ [Cell.oper "lshift" [a0, h.length] none]) c
        (h.length + 1)
      = Except.ok (((h ++ [Cell.const 1]) ++ [Cell.oper "lshift" [a0, h.length] none]).set c
          (Cell.oper "add" args (some (h.length + 1))))
    ∧ (((h ++ [Cell.const 1]) ++ [Cell.oper "lshift" [a0, h.length] none]).set c
        (Cell.oper "add" args (some (h.length + 1))))[h.length + 1]?
        = some (Cell.oper "lshift" [a0, h.length] none)
    ∧ (((h ++ [Cell.const 1]) ++ [Cell.oper "lshift" [a0, h.length] none]).set c
        (Cell.oper "add" args (some (h.length + 1))))[h.length]?
        = some (Cell.const 1)
    ∧ find (((h ++ [Cell.const 1]) ++ [Cell.oper "lshift" [a0, h.length] none]).set c
        (Cell.oper "add" args (some (h.length + 1)))) c = some (h.length + 1) := by
  have hcl : c < h.length := lt_length_of_cell hc
  have hc1 : ((h ++ [Cell.const 1]) ++ [Cell.oper "lshift" [a0, h.length] none])[c]?
      = some (Cell.oper "add" args none) := cell_append _ (cell_append _ hc)
  have hnew : (((h ++ [Cell.const 1]) ++ [Cell.oper "lshift" [a0, h.length] none]).set c
      (Cell.oper "add" args (some (h.length + 1))))[h.length + 1]?
      = some (Cell.oper "lshift" [a0, h.length] none) := by
    rw [List.getElem?_set_ne (by omega)]
    have : h.length + 1 = (h ++ [Cell.const 1]).length := by simp
    rw [this, List.getElem?_concat_length]
  have hone : (((h ++ [Cell.const 1]) ++ [Cell.oper "lshift" [a0, h.length] none]).set c
      (Cell.oper "add" args (some (h.length + 1))))[h.length]?
      = some (Cell.const 1) := by
    rw [List.getElem?_set_ne (by omega), List.getElem?_append, if_pos (by simp),
      List.getElem?_concat_length]
  have hcset : (((h ++ [Cell.const 1]) ++ [Cell.oper "lshift" [a0, h.length] none]).set c
      (Cell.oper "add" args (some (h.length + 1))))[c]?
      = some (Cell.oper "add" args (some (h.length + 1))) := by
    rw [List.getElem?_set_eq]
    simp
    omega
  exact ⟨make_equal_to_unforwarded hc1, hnew, hone,
    find_fwd_terminal hcset (Or.inr ⟨"lshift", [a0, h.length], hnew⟩)⟩

/-- C4: per operation, `strength_reduce` rewrites an `add` exactly when its
two resolved arguments are reference-identical: it emits a fresh
`lshift(arg, 1)` (allocating the Constant 1) and unions the add to it; an
`add` whose resolved arguments differ — including two distinct equal-valued
Constants, as in `add(5,5)` — and every non-`add` operation are emitted
unchanged.  On `v0=getarg(0); v1=add(v0,v0)` the pass produces exactly
`r0 = getarg(0); r1 = lshift(r0, 1)`. -/
theorem C4_strength_reduce_characterization :
    (∀ (h : Heap) (out : Block) (c : Nat) (name : String) (args : List Nat)
      (f : Option Nat), h[c]? = some (Cell.oper name args f) → name ≠ "add" →
      strength_reduceStep (h, out) c = Except.ok (h, out ++ [c]))
    ∧ (∀ (h : Heap) (out : Block) (c a0 : Nat) (args : List Nat),
      h[c]? = some (Cell.oper "add" args none) →
      argOf h c 0 = Except.ok a0 → argOf h c 1 = Except.ok a0 →
      ∃ h2, strength_reduceStep (h, out) c = Except.ok (h2, out ++ [h.length + 1])
        ∧ h2[h.length + 1]? = some (Cell.oper "lshift" [a0, h.length] none)
        ∧ h2[h.length]? = some (Cell.const 1)
        ∧ find h2 c = some (h.length + 1))
    ∧ (∀ (h : Heap) (out : Block) (c a0 a1 : Nat) (args : List Nat) (f : Option Nat),
      h[c]? = some (Cell.oper "add" args f) →
      argOf h c 0 = Except.ok a0 → argOf h c 1 = Except.ok a1 → a0 ≠ a1 →
      strength_reduceStep (h, out) c = Except.ok (h, out ++ [c]))
    ∧ strength_reduce twoConstInput.1 twoConstInput.2
        = Except.ok ([Cell.const 5, Cell.const 5, Cell.oper "add" [0, 1] none], [2])
    ∧ runAndRender strength_reduce srInput.1 srInput.2 "r"
        = some "r0 = getarg(0)\nr1 = lshift(r0, 1)" := by
  refine ⟨?_, ?_, ?_, by rfl, by rfl⟩
  · intro h out c name args f hc hname
    simp [strength_reduceStep, hc, hname]
  · intro h out c a0 args hc harg0 harg1
    obtain ⟨hmk, hnew, hone, hfind⟩ := lshift_branch_result a0 hc
    refine ⟨_, ?_, hnew, hone, hfind⟩
    simp only [strength_reduceStep, hc, harg0, harg1, if_true]
    simp only [build, wrapargs, wraparg, List.length_append, List.length_singleton]
    rw [hmk]
    rfl
  · intro h out c a0 a1 args f hc harg0 harg1 hne
    simp only [strength_reduceStep, hc, harg0, harg1]
    rw [if_neg hne]
    rfl

/-- Witness for C4 at concrete inputs: a non-`add` operation, the
`add(v0,v0)` of the strength-reduction example, and an `add` of two distinct
Constants. -/
theorem C4_strength_reduce_characterization_witness :
    strength_reduceStep ([Cell.const 7, Cell.oper "getarg" [0] none], []) 1
      = Except.ok ([Cell.const 7, Cell.oper "getarg" [0] none], [1])
    ∧ (∃ h2, strength_reduceStep
        ([Cell.const 0, Cell.oper "getarg" [0] none, Cell.oper "add" [1, 1] none], []) 2
        = Except.ok (h2, [4])
      ∧ h2[4]? = some (Cell.oper "lshift" [1, 3] none)
      ∧ h2[3]? = some (Cell.const 1)
      ∧ find h2 2 = some 4)
    ∧ strength_reduceStep ([Cell.const 5, Cell.const 5, Cell.oper "add" [0, 1] none], []) 2
      = Except.ok ([Cell.const 5, Cell.const 5, Cell.oper "add" [0, 1] none], [2]) := by
  refine ⟨?_, ?_, ?_⟩
  · exact C4_strength_reduce_characterization.1 _ [] 1 "getarg" [0] none (by decide)
      (by decide)
  · exact C4_strength_reduce_characterization.2.1 _ [] 2 1 [1, 1] (by decide)
      (by rfl) (by rfl)
  · exact C4_strength_reduce_characterization.2.2.1 _ [] 2 0 1 [0, 1] none (by decide)
      (by rfl) (by rfl) (by decide)

theorem find_prev_add_op_found {h : Heap} {a0 a1 p : Nat} :
    ∀ {obb : Block}, find_prev_add_op h a0 a1 obb = Except.ok (some p) →
      p ∈ obb ∧ ∃ args f b0 b1, h[p]? = some (Cell.oper "add" args f)
        ∧ argOf h p 0 = Except.ok b0 ∧ argOf h p 1 = Except.ok b1
        ∧ eq_value h a0 b0 = true ∧ eq_value h a1 b1 = true := by
  intro obb
  induction obb with
  | nil => intro hp; simp [find_prev_add_op] at hp
  | cons o rest ih =>
    intro hp
    rw [find_prev_add_op] at hp
    match hco : h[o]? with
    | none => rw [hco] at hp; exact Except.noConfusion hp
    | some (Cell.const v) => rw [hco] at hp; exact Except.noConfusion hp
    | some (Cell.oper nm args f) =>
      rw [hco] at hp
      dsimp only at hp
      by_cases hnm : nm = "add"
      · rw [if_pos hnm] at hp
        subst hnm
        match hb0 : argOf h o 0, hb1 : argOf h o 1 with
        | Except.ok b0, Except.ok b1 =>
          rw [hb0, hb1] at hp
          dsimp only at hp
          by_cases heq : (eq_value h a0 b0 && eq_value h a1 b1) = true
          · rw [if_pos heq] at hp
            cases hp
            obtain ⟨he0, he1⟩ := Eq.mp (Bool.and_eq_true _ _) heq
            exact ⟨List.mem_cons_self _ _, args, f, b0, b1, hco, hb0, hb1, he0, he1⟩
          · rw [if_neg heq] at hp
            obtain ⟨hmem, hrest⟩ := ih hp
            exact ⟨List.mem_cons_of_mem o hmem, hrest⟩
        | Except.ok b0, Except.error e => rw [hb0, hb1] at hp; exact Except.noConfusion hp
        | Except.error e, Except.ok b1 => rw [hb0, hb1] at hp; exact Except.noConfusion hp
        | Except.error e, Except.error e2 => rw [hb0, hb1] at hp; exact Except.noConfusion hp
      · rw [if_neg hnm] at hp
        obtain ⟨hmem, hrest⟩ := ih hp
        exact ⟨List.mem_cons_of_mem o hmem, hrest⟩

theorem find_prev_add_op_none {h : Heap} {a0 a1 : Nat} :
    ∀ {obb : Block}, find_prev_add_op h a0 a1 obb = Except.ok none →
      ∀ p, p ∈ obb → ∀ (args : List Nat) (f : Option Nat) (b0 b1 : Nat),
        h[p]? = some (Cell.oper "add" args f) →
        argOf h p 0 = Except.ok b0 → argOf h p 1 = Except.ok b1 →
        ¬(eq_value h a0 b0 = true ∧ eq_value h a1 b1 = true) := by
  intro obb
  induction obb with
  | nil =>
    intro _ p hpmem
    simp at hpmem
  | cons o rest ih =>
    intro hn p hpmem args f b0 b1 hcp hpb0 hpb1 hand
    rw [find_prev_add_op] at hn
    match hco : h[o]? with
    | none => rw [hco] at hn; exact Except.noConfusion hn
    | some (Cell.const v) => rw [hco] at hn; exact Except.noConfusion hn
    | some (Cell.oper nm args2 f2) =>
      rw [hco] at hn
      dsimp only at hn
      by_cases hnm : nm = "add"
      · rw [if_pos hnm] at hn
        subst hnm
        match hb0 : argOf h o 0, hb1 : argOf h o 1 with
        | Except.ok c0, Except.ok c1 =>
          rw [hb0, hb1] at hn
          dsimp only at hn
          by_cases heq : (eq_value h a0 c0 && eq_value h a1 c1) = true
          · rw [if_pos heq] at hn
            cases hn
          · rw [if_neg heq] at hn
            rcases List.mem_cons.mp hpmem with rfl | hpr
            · obtain ⟨rfl⟩ : c0 = b0 := by
                rw [hb0] at hpb0; exact (Except.ok.inj hpb0)
              obtain ⟨rfl⟩ : c1 = b1 := by
                rw [hb1] at hpb1; exact (Except.ok.inj hpb1)
              exact heq (Eq.mpr (Bool.and_eq_true _ _) ⟨hand.1, hand.2⟩)
            · exact ih hn p hpr args f b0 b1 hcp hpb0 hpb1 hand
        | Except.ok c0, Except.error e => rw [hb0, hb1] at hn; exact Except.noConfusion hn
        | Except.error e, Except.ok c1 => rw [hb0, hb1] at hn; exact Except.noConfusion hn
        | Except.error e, Except.error e2 => rw [hb0, hb1] at hn; exact Except.noConfusion hn
      · rw [if_neg hnm] at hn
        rcases List.mem_cons.mp hpmem with rfl | hpr
        · rw [hco] at hcp
          exact hnm (by cases hcp; rfl)
        · exact ih hn p hpr args f b0 b1 hcp hpb0 hpb1 hand

/-- C3: the CSE pass unions each `add` to the first previously emitted `add`
whose two resolved arguments match pairwise in order (Constants comparing by
value, everything else by reference identity) and then does not emit it;
when no prior same-order match exists the operation is emitted unchanged, so
`add(a,b)` is never unified with a previously emitted `add(b,a)`; on the
concrete block of `test_cse` the pass produces exactly
`r0=getarg(0); r1=getarg(1); r2=add(r1,17); r3=mul(r0,r2); r4=add(r3,r2)`. -/
theorem C3_cse_characterization :
    (∀ (h : Heap) (a0 a1 p : Nat) (obb : Block),
      find_prev_add_op h a0 a1 obb = Except.ok (some p) →
      p ∈ obb ∧ ∃ args f b0 b1, h[p]? = some (Cell.oper "add" args f)
        ∧ argOf h p 0 = Except.ok b0 ∧ argOf h p 1 = Except.ok b1
        ∧ eq_value h a0 b0 = true ∧ eq_value h a1 b1 = true)
    ∧ (∀ (h : Heap) (a0 a1 : Nat) (obb : Block),
      find_prev_add_op h a0 a1 obb = Except.ok none →
      ∀ p, p ∈ obb → ∀ (args : List Nat) (f : Option Nat) (b0 b1 : Nat),
        h[p]? = some (Cell.oper "add" args f) →
        argOf h p 0 = Except.ok b0 → argOf h p 1 = Except.ok b1 →
        ¬(eq_value h a0 b0 = true ∧ eq_value h a1 b1 = true))
    ∧ (∀ (h : Heap) (i j : Nat) (v w : Int), h[i]? = some (Cell.const v) →
      h[j]? = some (Cell.const w) → eq_value h i j = (v == w))
    ∧ (∀ (h : Heap) (i j : Nat) (n : String) (args : List Nat) (f : Option Nat),
      h[i]? = some (Cell.oper n args f) → eq_value h i j = (i == j))
    ∧ (∀ (h : Heap) (out : Block) (c a0 a1 p : Nat) (args : List Nat),
      h[c]? = some (Cell.oper "add" args none) →
      argOf h c 0 = Except.ok a0 → argOf h c 1 = Except.ok a1 →
      find_prev_add_op h a0 a1 out = Except.ok (some p) →
      cseStep (h, out) c = Except.ok (h.set c (Cell.oper "add" args (some p)), out))
    ∧ (∀ (h : Heap) (out : Block) (c a0 a1 : Nat) (args : List Nat) (f : Option Nat),
      h[c]? = some (Cell.oper "add" args f) →
      argOf h c 0 = Except.ok a0 → argOf h c 1 = Except.ok a1 →
      find_prev_add_op h a0 a1 out = Except.ok none →
      cseStep (h, out) c = Except.ok (h, out ++ [c]))
    ∧ (∀ (h : Heap) (out : Block) (c : Nat) (name : String) (args : List Nat)
      (f : Option Nat), h[c]? = some (Cell.oper name args f) → name ≠ "add" →
      cseStep (h, out) c = Except.ok (h, out ++ [c]))
    ∧ common_subexpr_elimination swapInput.1 swapInput.2
        = Except.ok
            ([Cell.const 0, Cell.oper "getarg" [0] none, Cell.const 1,
              Cell.oper "getarg" [2] none, Cell.oper "add" [1, 3] none,
              Cell.oper "add" [3, 1] none], [1, 3, 4, 5])
    ∧ runAndRender common_subexpr_elimination cseInput.1 cseInput.2 "r"
        = some "r0 = getarg(0)\nr1 = getarg(1)\nr2 = add(r1, 17)\nr3 = mul(r0, r2)\nr4 = add(r3, r2)" := by
  refine ⟨fun h a0 a1 p obb => find_prev_add_op_found,
    fun h a0 a1 obb => find_prev_add_op_none, ?_, ?_, ?_, ?_, ?_, by rfl, by rfl⟩
  · intro h i j v w hci hcj
    rw [eq_value, hci, hcj]
  · intro h i j n args f hci
    rw [eq_value, hci]
  · intro h out c a0 a1 p args hc harg0 harg1 hprev
    simp only [cseStep, hc, harg0, harg1, hprev]
    rw [make_equal_to_unforwarded hc]
    rfl
  · intro h out c a0 a1 args f hc harg0 harg1 hprev
    simp only [cseStep, hc, harg0, harg1, hprev]
    simp
  · intro h out c name args f hc hname
    simp [cseStep, hc, hname]

/-- Witness for C3 at concrete inputs: a found previous add (which the step
unions to without emitting), a no-match scan over a block containing only the
swapped `add`, and a non-`add` operation. -/
theorem C3_cse_characterization_witness :
    (1 ∈ ([1] : Block) ∧ ∃ args f b0 b1,
      ([Cell.const 17, Cell.oper "add" [0, 0] none, Cell.oper "add" [0, 0] none] : Heap)[1]?
        = some (Cell.oper "add" args f)
      ∧ argOf [Cell.const 17, Cell.oper "add" [0, 0] none, Cell.oper "add" [0, 0] none] 1 0
          = Except.ok b0
      ∧ argOf [Cell.const 17, Cell.oper "add" [0, 0] none, Cell.oper "add" [0, 0] none] 1 1
          = Except.ok b1
      ∧ eq_value [Cell.const 17, Cell.oper "add" [0, 0] none, Cell.oper "add" [0, 0] none] 0 b0
          = true
      ∧ eq_value [Cell.const 17, Cell.oper "add" [0, 0] none, Cell.oper "add" [0, 0] none] 0 b1
          = true)
    ∧ cseStep (([Cell.const 17, Cell.oper "add" [0, 0] none, Cell.oper "add" [0, 0] none] : Heap),
        ([1] : Block)) 2
      = Except.ok
          ([Cell.const 17, Cell.oper "add" [0, 0] none, Cell.oper "add" [0, 0] (some 1)], [1])
    ∧ ¬(eq_value swapInput.1 3 1 = true ∧ eq_value swapInput.1 1 3 = true)
    ∧ cseStep (([Cell.const 7, Cell.oper "getarg" [0] none] : Heap), ([] : Block)) 1
      = Except.ok ([Cell.const 7, Cell.oper "getarg" [0] none], [1]) := by
  refine ⟨?_, ?_, ?_, ?_⟩
  · exact C3_cse_characterization.1
      [Cell.const 17, Cell.oper "add" [0, 0] none, Cell.oper "add" [0, 0] none]
      0 0 1 [1] (by rfl)
  · exact C3_cse_characterization.2.2.2.2.1 _ [1] 2 0 0 1 [0, 0] (by decide)
      (by rfl) (by rfl) (by rfl)
  · exact C3_cse_characterization.2.1 swapInput.1 3 1 [1, 3, 4] (by rfl) 4
      (by decide) [1, 3] none 1 3 (by decide) (by rfl) (by rfl)
  · exact C3_cse_characterization.2.2.2.2.2.2.1 _ [] 1 "getarg" [0] none (by decide)
      (by decide)

/-- Comparing a value against a freshly allocated Constant (the Python
expression `eq_value(arg, Constant(z))`): a Constant argument compares by
value. -/
theorem eq_value_append_const {h : Heap} {a : Nat} {v z : Int}
    (hc : h[a]? = some (Cell.const v)) :
    eq_value (h ++ [Cell.const z]) a h.length = (v == z) := by
  rw [eq_value, cell_append _ hc, List.getElem?_concat_length]

/-- Comparing an Operation against a freshly allocated Constant is reference
comparison with a brand-new object: always false. -/
theorem eq_value_append_oper {h : Heap} {a : Nat} {z : Int} {n : String}
    {args : List Nat} {f : Option Nat} (hc : h[a]? = some (Cell.oper n args f)) :
    eq_value (h ++ [Cell.const z]) a h.length = false := by
  rw [eq_value, cell_append _ hc, List.getElem?_concat_length]
  have hne : a ≠ h.length := Nat.ne_of_lt (lt_length_of_cell hc)
  simp [hne]

theorem eq_value_append_fresh_false {h : Heap} {a : Nat} {c : Cell}
    (hc : h[a]? = some c) (hne : h[a]? ≠ some (Cell.const 0)) :
    eq_value (h ++ [Cell.const 0]) a h.length = false := by
  match c, hc with
  | Cell.const v, hc =>
    have hv : v ≠ 0 := fun hv => hne (by rw [hc, hv])
    rw [eq_value_append_const hc]
    simp [hv]
  | Cell.oper n args f, hc => exact eq_value_append_oper hc

/-- C1: the fused pass handles each `add` in the fixed priority order
(1) constant folding, (2) CSE lookup in the emitted output, (3) strength
reduction when the resolved arguments are reference-identical, (4) additive
identity unioning to the other argument when either resolved argument is a
Constant 0, falling through to unchanged emission (after the two dead
`Constant(0)` allocations the Python zero tests make); every non-`add`
operation is emitted unchanged; and on the concrete block
`v0=getarg(0); v1=add(16,-16); v2=add(v0,v1); v3=add(0,v2); v4=add(v2,v3)`
it produces exactly `r0 = getarg(0); r1 = lshift(r0, 1)`. -/
theorem C1_optimise_characterization :
    (∀ (h : Heap) (out : Block) (c : Nat) (name : String) (args : List Nat)
      (f : Option Nat), h[c]? = some (Cell.oper name args f) → name ≠ "add" →
      optimiseStep (h, out) c = Except.ok (h, out ++ [c]))
    ∧ (∀ (h : Heap) (out : Block) (c a0 a1 : Nat) (args : List Nat) (v0 v1 : Int),
      h[c]? = some (Cell.oper "add" args none) →
      argOf h c 0 = Except.ok a0 → argOf h c 1 = Except.ok a1 →
      h[a0]? = some (Cell.const v0) → h[a1]? = some (Cell.const v1) →
      optimiseStep (h, out) c
        = Except.ok ((h ++ [Cell.const (v0 + v1)]).set c
            (Cell.oper "add" args (some h.length)), out)
      ∧ find ((h ++ [Cell.const (v0 + v1)]).set c
          (Cell.oper "add" args (some h.length))) c = some h.length
      ∧ ((h ++ [Cell.const (v0 + v1)]).set c
          (Cell.oper "add" args (some h.length)))[h.length]?
          = some (Cell.const (v0 + v1)))
    ∧ (∀ (h : Heap) (out : Block) (c a0 a1 p : Nat) (args : List Nat),
      h[c]? = some (Cell.oper "add" args none) →
      argOf h c 0 = Except.ok a0 → argOf h c 1 = Except.ok a1 →
      ((∀ v0 : Int, h[a0]? ≠ some (Cell.const v0))
        ∨ (∀ v1 : Int, h[a1]? ≠ some (Cell.const v1))) →
      find_prev_add_op h a0 a1 out = Except.ok (some p) →
      optimiseStep (h, out) c = Except.ok (h.set c (Cell.oper "add" args (some p)), out))
    ∧ (∀ (h : Heap) (out : Block) (c a0 : Nat) (args : List Nat),
      h[c]? = some (Cell.oper "add" args none) →
      argOf h c 0 = Except.ok a0 → argOf h c 1 = Except.ok a0 →
      (∀ v0 : Int, h[a0]? ≠ some (Cell.const v0)) →
      find_prev_add_op h a0 a0 out = Except.ok none →
      ∃ h2, optimiseStep (h, out) c = Except.ok (h2, out ++ [h.length + 1])
        ∧ h2[h.length + 1]? = some (Cell.oper "lshift" [a0, h.length] none)
        ∧ h2[h.length]? = some (Cell.const 1)
        ∧ find h2 c = some (h.length + 1))
    ∧ (∀ (h : Heap) (out : Block) (c a0 a1 : Nat) (args : List Nat),
      h[c]? = some (Cell.oper "add" args none) →
      argOf h c 0 = Except.ok a0 → argOf h c 1 = Except.ok a1 →
      (∀ v1 : Int, h[a1]? ≠ some (Cell.const v1)) →
      find_prev_add_op h a0 a1 out = Except.ok none →
      a0 ≠ a1 → h[a0]? = some (Cell.const 0) →
      optimiseStep (h, out) c
        = Except.ok ((h ++ [Cell.const 0]).set c (Cell.oper "add" args (some a1)), out))
    ∧ (∀ (h : Heap) (out : Block) (c a0 a1 : Nat) (args : List Nat),
      h[c]? = some (Cell.oper "add" args none) →
      argOf h c 0 = Except.ok a0 → argOf h c 1 = Except.ok a1 →
      ((∀ v0 : Int, h[a0]? ≠ some (Cell.const v0))
        ∨ (∀ v1 : Int, h[a1]? ≠ some (Cell.const v1))) →
      find_prev_add_op h a0 a1 out = Except.ok none →
      a0 ≠ a1 → h[a0]? ≠ some (Cell.const 0) → h[a1]? = some (Cell.const 0) →
      optimiseStep (h, out) c
        = Except.ok (((h ++ [Cell.const 0]) ++ [Cell.const 0]).set c
            (Cell.oper "add" args (some a0)), out))
    ∧ (∀ (h : Heap) (out : Block) (c a0 a1 : Nat) (args : List Nat),
      h[c]? = some (Cell.oper "add" args none) →
      argOf h c 0 = Except.ok a0 → argOf h c 1 = Except.ok a1 →
      ((∀ v0 : Int, h[a0]? ≠ some (Cell.const v0))
        ∨ (∀ v1 : Int, h[a1]? ≠ some (Cell.const v1))) →
      find_prev_add_op h a0 a1 out = Except.ok none →
      a0 ≠ a1 → h[a0]? ≠ some (Cell.const 0) → h[a1]? ≠ some (Cell.const 0) →
      optimiseStep (h, out) c
        = Except.ok ((h ++ [Cell.const 0]) ++ [Cell.const 0], out ++ [c]))
    ∧ runAndRender optimise fusedInput.1 fusedInput.2 "r"
        = some "r0 = getarg(0)\nr1 = lshift(r0, 1)" := by
  refine ⟨?_, ?_, ?_, ?_, ?_, ?_, ?_, by rfl⟩
  · intro h out c name args f hc hname
    simp [optimiseStep, hc, hname]
  · intro h out c a0 a1 args v0 v1 hc harg0 harg1 ha0 ha1
    obtain ⟨hmk, hfind, hnew⟩ := fold_branch_result v0 v1 hc
    refine ⟨?_, hfind, hnew⟩
    simp only [optimiseStep, hc, harg0, harg1, ha0, ha1]
    rw [hmk]
    rfl
  · intro h out c a0 a1 p args hc harg0 harg1 hnotc hfound
    simp only [optimiseStep, hc, harg0, harg1]
    split
    · split
      · rename_i v0 v1 hv0 hv1
        rcases hnotc with hne | hne
        · exact absurd hv0 (hne v0)
        · exact absurd hv1 (hne v1)
      · rw [hfound]
        dsimp only
        rw [make_equal_to_unforwarded hc]
        rfl
    · rename_i hft
      exact absurd trivial hft
  · intro h out c a0 args hc harg0 harg1 hnotc hnone
    obtain ⟨hmk, hnew, hone, hfind⟩ := lshift_branch_result a0 hc
    refine ⟨_, ?_, hnew, hone, hfind⟩
    simp only [optimiseStep, hc, harg0, harg1]
    split
    · split
      · rename_i v0 v1 hv0 hv1
        exact absurd hv0 (hnotc v0)
      · rw [hnone]
        dsimp only
        simp only [build, wrapargs, wraparg, List.length_append, List.length_singleton]
        rw [hmk]
        rfl
    · rename_i hft
      exact absurd trivial hft
  · intro h out c a0 a1 args hc harg0 harg1 ha1ne hnone hne01 hz0
    simp only [optimiseStep, hc, harg0, harg1]
    split
    · split
      · rename_i v0 v1 hv0 hv1
        exact absurd hv1 (ha1ne v1)
      · rw [hnone]
        dsimp only
        have heqv : eq_value (h ++ [Cell.const 0]) a0 h.length = true := by
          rw [eq_value_append_const hz0]
          decide
        rw [if_pos heqv]
        rw [make_equal_to_unforwarded (cell_append _ hc)]
        rfl
    · rename_i hft
      exact absurd trivial hft
  · intro h out c a0 a1 args hc harg0 harg1 hnotc hnone hne01 hz0ne hz1
    obtain ⟨n2, args2, f2, b, hcc, hb, hfa0⟩ := argOf_ok harg0
    obtain ⟨cc0, hcell0⟩ := findFuel_cell hfa0
    have heqv0 : ¬(eq_value (h ++ [Cell.const 0]) a0 h.length = true) := by
      rw [eq_value_append_fresh_false hcell0 hz0ne]
      simp
    simp only [optimiseStep, hc, harg0, harg1]
    split
    · split
      · rename_i v0 v1 hv0 hv1
        rcases hnotc with hne | hne
        · exact absurd hv0 (hne v0)
        · exact absurd hv1 (hne v1)
      · rw [hnone]
        dsimp only
        have heqv1 : eq_value ((h ++ [Cell.const 0]) ++ [Cell.const 0]) a1
            (h ++ [Cell.const 0]).length = true := by
          rw [eq_value_append_const (cell_append _ hz1)]
          decide
        rw [if_pos heqv1]
        rw [make_equal_to_unforwarded (cell_append _ (cell_append _ hc))]
        rfl
    · rename_i hft
      exact absurd trivial hft
  · intro h out c a0 a1 args hc harg0 harg1 hnotc hnone hne01 hz0ne hz1ne
    obtain ⟨n2, args2, f2, b, hcc, hb, hfa0⟩ := argOf_ok harg0
    obtain ⟨cc0, hcell0⟩ := findFuel_cell hfa0
    obtain ⟨n3, args3, f3, b1, hcc1, hb1, hfa1⟩ := argOf_ok harg1
    obtain ⟨cc1, hcell1⟩ := findFuel_cell hfa1
    have heqv0 : ¬(eq_value (h ++ [Cell.const 0]) a0 h.length = true) := by
      rw [eq_value_append_fresh_false hcell0 hz0ne]
      simp
    have hz1ne' : (h ++ [Cell.const 0])[a1]? ≠ some (Cell.const 0) := by
      rw [cell_append _ hcell1]
      intro hcontra
      exact hz1ne (by rw [hcell1, Option.some.inj hcontra])
    have heqv1 : ¬(eq_value ((h ++ [Cell.const 0]) ++ [Cell.const 0]) a1
        (h ++ [Cell.const 0]).length = true) := by
      rw [eq_value_append_fresh_false (cell_append _ hcell1) hz1ne']
      simp
    simp only [optimiseStep, hc, harg0, harg1]
    split
    · split
      · rename_i v0 v1 hv0 hv1
        rcases hnotc with hne | hne
        · exact absurd hv0 (hne v0)
        · exact absurd hv1 (hne v1)
      · rw [hnone]
    · rename_i hft
      exact absurd trivial hft

/-- Witness for C1 at concrete inputs exercising the branches: a non-`add`
operation, a foldable `add(2,3)`, a CSE hit on a previously emitted equal
`add` (taking priority over strength reduction even though the arguments are
identical), a strength-reduced `add(v0,v0)`, and an additive-identity
`add(0,v0)` unioned to its other argument. -/
theorem C1_optimise_characterization_witness :
    optimiseStep ([Cell.const 7, Cell.oper "getarg" [0] none], []) 1
      = Except.ok ([Cell.const 7, Cell.oper "getarg" [0] none], [1])
    ∧ optimiseStep ([Cell.const 2, Cell.const 3, Cell.oper "add" [0, 1] none], []) 2
      = Except.ok ([Cell.const 2, Cell.const 3, Cell.oper "add" [0, 1] (some 3),
          Cell.const 5], [])
    ∧ optimiseStep
        ([Cell.const 0, Cell.oper "getarg" [0] none, Cell.oper "add" [1, 1] none,
          Cell.oper "add" [1, 1] none], [1, 2]) 3
      = Except.ok
          ([Cell.const 0, Cell.oper "getarg" [0] none, Cell.oper "add" [1, 1] none,
            Cell.oper "add" [1, 1] (some 2)], [1, 2])
    ∧ (∃ h2, optimiseStep
        ([Cell.const 0, Cell.oper "getarg" [0] none, Cell.oper "add" [1, 1] none], [1]) 2
        = Except.ok (h2, [1, 4])
      ∧ h2[4]? = some (Cell.oper "lshift" [1, 3] none)
      ∧ h2[3]? = some (Cell.const 1)
      ∧ find h2 2 = some 4)
    ∧ optimiseStep
        ([Cell.const 0, Cell.oper "getarg" [0] none, Cell.oper "add" [0, 1] none], [1]) 2
      = Except.ok
          ([Cell.const 0, Cell.oper "getarg" [0] none, Cell.oper "add" [0, 1] (some 1),
            Cell.const 0], [1]) := by
  refine ⟨?_, ?_, ?_, ?_, ?_⟩
  · exact C1_optimise_characterization.1 _ [] 1 "getarg" [0] none (by decide) (by decide)
  · exact (C1_optimise_characterization.2.1 _ [] 2 0 1 [0, 1] 2 3 (by decide)
      (by rfl) (by rfl) (by decide) (by decide)).1
  · exact C1_optimise_characterization.2.2.1 _ [1, 2] 3 1 1 2 [1, 1] (by decide)
      (by rfl) (by rfl)
      (Or.inl (fun v0 hv => Cell.noConfusion (Option.some.inj hv))) (by rfl)
  · exact C1_optimise_characterization.2.2.2.1 _ [1] 2 1 [1, 1] (by decide)
      (by rfl) (by rfl) (fun v0 hv => Cell.noConfusion (Option.some.inj hv)) (by rfl)
  · exact C1_optimise_characterization.2.2.2.2.1 _ [1] 2 0 1 [0, 1] (by decide)
      (by rfl) (by rfl) (fun v1 hv => Cell.noConfusion (Option.some.inj hv)) (by rfl)
      (by decide) (by decide)

/-! ### C9: the frame property of the passes -/

/-- Frame relation between heaps: every Operation keeps its opcode and its
stored argument list (only the `forwarded` field may change), and every
Constant keeps its value; new cells may be allocated at the end. -/
def Preserves (h h' : Heap) : Prop :=
  (∀ (i : Nat) (n : String) (args : List Nat) (f : Option Nat),
    h[i]? = some (Cell.oper n args f) → ∃ f', h'[i]? = some (Cell.oper n args f'))
  ∧ (∀ (i : Nat) (v : Int), h[i]? = some (Cell.const v) → h'[i]? = some (Cell.const v))

theorem preserves_refl (h : Heap) : Preserves h h :=
  ⟨fun _ _ _ f hc => ⟨f, hc⟩, fun _ _ hc => hc⟩

theorem preserves_trans {h1 h2 h3 : Heap} (p : Preserves h1 h2) (q : Preserves h2 h3) :
    Preserves h1 h3 := by
  refine ⟨fun i n args f hc => ?_, fun i v hc => q.2 i v (p.2 i v hc)⟩
  obtain ⟨f2, hc2⟩ := p.1 i n args f hc
  exact q.1 i n args f2 hc2

theorem preserves_append (h l : Heap) : Preserves h (h ++ l) :=
  ⟨fun _ _ _ f hc => ⟨f, cell_append l hc⟩, fun _ _ hc => cell_append l hc⟩

theorem preserves_set_fwd {h : Heap} {r : Nat} {n : String} {args : List Nat}
    {f f' : Option Nat} (hr : h[r]? = some (Cell.oper n args f)) :
    Preserves h (h.set r (Cell.oper n args (f'))) := by
  constructor
  · intro i n2 args2 f2 hc
    by_cases hir : i = r
    · subst hir
      rw [hr] at hc
      cases hc
      exact ⟨f', by rw [List.getElem?_set_eq (lt_length_of_cell hr)]⟩
    · exact ⟨f2, by rw [List.getElem?_set_ne (fun hh => hir hh.symm)]; exact hc⟩
  · intro i v hc
    have hir : i ≠ r := by
      rintro rfl
      rw [hr] at hc
      cases hc
    rw [List.getElem?_set_ne (fun hh => hir hh.symm)]
    exact hc

theorem map_ok {α β : Type} {g : α → β} {x : Except Err α} {y : β}
    (hm : Except.map g x = Except.ok y) : ∃ a, x = Except.ok a ∧ y = g a := by
  cases x with
  | ok a => exact ⟨a, rfl, (Except.ok.inj hm).symm⟩
  | error e => exact Except.noConfusion hm

theorem make_equal_to_preserves {h h' : Heap} {i t : Nat}
    (hmk : make_equal_to h i t = Except.ok h') : Preserves h h' := by
  rw [make_equal_to] at hmk
  match hf : find h i with
  | none => rw [hf] at hmk; exact Except.noConfusion hmk
  | some r =>
    rw [hf] at hmk
    dsimp only at hmk
    match hr : h[r]? with
    | none => rw [hr] at hmk; exact Except.noConfusion hmk
    | some (Cell.const v) =>
      rw [hr] at hmk
      dsimp only at hmk
      match ht : h[t]? with
      | some (Cell.const w) =>
        rw [ht] at hmk
        dsimp only at hmk
        by_cases hvw : v = w
        · rw [if_pos hvw] at hmk
          cases hmk
          exact preserves_refl _
        · rw [if_neg hvw] at hmk
          exact Except.noConfusion hmk
      | some (Cell.oper n2 args2 f2) => rw [ht] at hmk; exact Except.noConfusion hmk
      | none => rw [ht] at hmk; exact Except.noConfusion hmk
    | some (Cell.oper n args f) =>
      rw [hr] at hmk
      dsimp only at hmk
      cases hmk
      exact preserves_set_fwd hr

theorem wrapargs_preserves (h : Heap) (l : List RawArg) : Preserves h (wrapargs h l).1 := by
  induction l generalizing h with
  | nil => exact preserves_refl h
  | cons a rest ih =>
    cases a with
    | int n =>
      have : (wrapargs h (RawArg.int n :: rest)).1 = (wrapargs (h ++ [Cell.const n]) rest).1 := by
        rw [wrapargs, wraparg]
      rw [this]
      exact preserves_trans (preserves_append h [Cell.const n]) (ih _)
    | val i =>
      have : (wrapargs h (RawArg.val i :: rest)).1 = (wrapargs h rest).1 := by
        rw [wrapargs, wraparg]
      rw [this]
      exact ih h

theorem build_preserves (nm : String) (h : Heap) (bb : Block) (l : List RawArg) :
    Preserves h (build nm h bb l).1 :=
  preserves_trans (wrapargs_preserves h l) (preserves_append _ _)

theorem constfoldStep_preserves {st st' : Heap × Block} {c : Nat}
    (hs : constfoldStep st c = Except.ok st') : Preserves st.1 st'.1 := by
  rw [constfoldStep] at hs
  split at hs
  · split at hs
    · split at hs
      · split at hs
        · obtain ⟨h2, hmk, hy⟩ := map_ok hs
          rw [hy]
          exact preserves_trans (preserves_append _ _) (make_equal_to_preserves hmk)
        · cases hs; exact preserves_refl _
      · exact Except.noConfusion hs
      · exact Except.noConfusion hs
    · cases hs; exact preserves_refl _
  · exact Except.noConfusion hs

theorem cseStep_preserves {st st' : Heap × Block} {c : Nat}
    (hs : cseStep st c = Except.ok st') : Preserves st.1 st'.1 := by
  rw [cseStep] at hs
  split at hs
  · split at hs
    · split at hs
      · split at hs
        · obtain ⟨h2, hmk, hy⟩ := map_ok hs
          rw [hy]
          exact make_equal_to_preserves hmk
        · cases hs; exact preserves_refl _
        · exact Except.noConfusion hs
      · exact Except.noConfusion hs
      · exact Except.noConfusion hs
    · cases hs; exact preserves_refl _
  · exact Except.noConfusion hs

theorem strength_reduceStep_preserves {st st' : Heap × Block} {c : Nat}
    (hs : strength_reduceStep st c = Except.ok st') : Preserves st.1 st'.1 := by
  rw [strength_reduceStep] at hs
  split at hs
  · split at hs
    · split at hs
      · split at hs
        · obtain ⟨h2, hmk, hy⟩ := map_ok hs
          rw [hy]
          exact preserves_trans (build_preserves _ _ _ _) (make_equal_to_preserves hmk)
        · cases hs; exact preserves_refl _
      · exact Except.noConfusion hs
      · exact Except.noConfusion hs
    · cases hs; exact preserves_refl _
  · exact Except.noConfusion hs

theorem optimiseStep_preserves {st st' : Heap × Block} {c : Nat}
    (hs : optimiseStep st c = Except.ok st') : Preserves st.1 st'.1 := by
  rw [optimiseStep] at hs
  split at hs
  · split at hs
    · split at hs
      · split at hs
        · obtain ⟨h2, hmk, hy⟩ := map_ok hs
          rw [hy]
          exact preserves_trans (preserves_append _ _) (make_equal_to_preserves hmk)
        · split at hs
          · obtain ⟨h2, hmk, hy⟩ := map_ok hs
            rw [hy]
            exact make_equal_to_preserves hmk
          · split at hs
            · obtain ⟨h2, hmk, hy⟩ := map_ok hs
              rw [hy]
              exact preserves_trans (build_preserves _ _ _ _) (make_equal_to_preserves hmk)
            · dsimp only at hs
              split at hs
              · obtain ⟨h2, hmk, hy⟩ := map_ok hs
                rw [hy]
                exact preserves_trans (preserves_append _ _) (make_equal_to_preserves hmk)
              · split at hs
                · obtain ⟨h2, hmk, hy⟩ := map_ok hs
                  rw [hy]
                  exact preserves_trans
                    (preserves_trans (preserves_append _ _) (preserves_append _ _))
                    (make_equal_to_preserves hmk)
                · cases hs
                  exact preserves_trans (preserves_append _ _) (preserves_append _ _)
          · exact Except.noConfusion hs
      · exact Except.noConfusion hs
      · exact Except.noConfusion hs
    · cases hs; exact preserves_refl _
  · exact Except.noConfusion hs

theorem foldlM_preserves {step : Heap × Block → Nat → Except Err (Heap × Block)}
    (hstep : ∀ st c st', step st c = Except.ok st' → Preserves st.1 st'.1) :
    ∀ (bb : Block) (st st' : Heap × Block),
      List.foldlM step st bb = Except.ok st' → Preserves st.1 st'.1 := by
  intro bb
  induction bb with
  | nil =>
    intro st st' hf
    cases hf
    exact preserves_refl _
  | cons c rest ih =>
    intro st st' hf
    rw [List.foldlM_cons] at hf
    match hstp : step st c with
    | Except.error e =>
      rw [hstp] at hf
      exact Except.noConfusion hf
    | Except.ok s =>
      rw [hstp] at hf
      dsimp only [Bind.bind, Except.bind] at hf
      exact preserves_trans (hstep st c s hstp) (ih s st' hf)

/-- C9: every pass builds a brand-new output block (the embedding folds from
the empty block, only ever appending) and leaves the input intact: after any
of the four passes succeeds, every Operation cell still holds its original
opcode and stored argument list (only `forwarded` may have changed — stored
arguments are never rewritten to representatives) and every Constant cell
still holds its original value; the input block itself, a sequence of cell
indices, is untouched by construction. -/
theorem C9_passes_frame :
    (∀ (h : Heap) (bb : Block) (st : Heap × Block),
      constfold h bb = Except.ok st → Preserves h st.1)
    ∧ (∀ (h : Heap) (bb : Block) (st : Heap × Block),
      common_subexpr_elimination h bb = Except.ok st → Preserves h st.1)
    ∧ (∀ (h : Heap) (bb : Block) (st : Heap × Block),
      strength_reduce h bb = Except.ok st → Preserves h st.1)
    ∧ (∀ (h : Heap) (bb : Block) (st : Heap × Block),
      optimise h bb = Except.ok st → Preserves h st.1) :=
  ⟨fun h bb st hf => foldlM_preserves (fun _ _ _ => constfoldStep_preserves) bb (h, []) st hf,
   fun h bb st hf => foldlM_preserves (fun _ _ _ => cseStep_preserves) bb (h, []) st hf,
   fun h bb st hf => foldlM_preserves (fun _ _ _ => strength_reduceStep_preserves) bb (h, []) st hf,
   fun h bb st hf => foldlM_preserves (fun _ _ _ => optimiseStep_preserves) bb (h, []) st hf⟩

/-- Witness for C9: the fused pass on the combined example preserves every
opcode, stored argument list and Constant value of the input heap. -/
theorem C9_passes_frame_witness :
    Preserves fusedInput.1
      [Cell.const 0, Cell.oper "getarg" [0] none, Cell.const 16, Cell.const (-16),
       Cell.oper "add" [2, 3] (some 9), Cell.oper "add" [1, 4] (some 1), Cell.const 0,
       Cell.oper "add" [6, 5] (some 1), Cell.oper "add" [5, 7] (some 14), Cell.const 0,
       Cell.const 0, Cell.const 0, Cell.const 0, Cell.const 1,
       Cell.oper "lshift" [1, 13] none] :=
  C9_passes_frame.2.2.2 fusedInput.1 fusedInput.2
    ([Cell.const 0, Cell.oper "getarg" [0] none, Cell.const 16, Cell.const (-16),
      Cell.oper "add" [2, 3] (some 9), Cell.oper "add" [1, 4] (some 1), Cell.const 0,
      Cell.oper "add" [6, 5] (some 1), Cell.oper "add" [5, 7] (some 14), Cell.const 0,
      Cell.const 0, Cell.const 0, Cell.const 0, Cell.const 1,
      Cell.oper "lshift" [1, 13] none], [1, 14])
    (by rfl)

/-! ### C8: dropped operations are always unioned toward kept values -/

def isConstB (h : Heap) (i : Nat) : Bool :=
  match h[i]? with
  | some (Cell.const _) => true
  | _ => false

/-- Well-formedness of one input operation: un-forwarded, and every stored
argument is a Constant or an operation already listed in `done`. -/
def cellOK (h : Heap) (done : List Nat) (o : Nat) : Bool :=
  match h[o]? with
  | some (Cell.oper _ args none) => args.all (fun a => isConstB h a || decide (a ∈ done))
  | _ => false

/-- SSA definition-before-use for the remainder of a block: each operation is
well-formed with respect to the operations before it. -/
def Pending (h : Heap) (done : List Nat) : List Nat → Bool
  | [] => true
  | o :: rest => cellOK h done o && Pending h (done ++ [o]) rest

def IsConst (h : Heap) (r : Nat) : Prop := ∃ v, h[r]? = some (Cell.const v)

/-- `r` is the canonical representative of `o`, reached in at most one
forward step — the shape all chains have during a single pass over a fresh
block. -/
def RepOf (h : Heap) (o r : Nat) : Prop :=
  (r = o ∧ ∃ n a, h[o]? = some (Cell.oper n a none))
  ∨ (∃ n a, h[o]? = some (Cell.oper n a (some r)) ∧ Terminal h r)

/-- The pass invariant: the heap only grew, every emitted operation is
un-forwarded, emitted operations are processed input operations or freshly
allocated ones, and every processed operation's representative is a Constant
or an emitted operation. -/
structure Inv (N0 : Nat) (h : Heap) (out done : List Nat) : Prop where
  hlen : N0 ≤ h.length
  outUn : ∀ o ∈ out, ∃ n a, h[o]? = some (Cell.oper n a none)
  outOrigin : ∀ o ∈ out, o ∈ done ∨ N0 ≤ o
  doneRep : ∀ o ∈ done, ∃ r, RepOf h o r ∧ (IsConst h r ∨ r ∈ out)

theorem cellOK_spec {h : Heap} {done : List Nat} {o : Nat}
    (hok : cellOK h done o = true) :
    ∃ n args, h[o]? = some (Cell.oper n args none)
      ∧ ∀ a ∈ args, IsConst h a ∨ a ∈ done := by
  rw [cellOK] at hok
  match hc : h[o]? with
  | none => rw [hc] at hok; exact Bool.noConfusion hok
  | some (Cell.const v) => rw [hc] at hok; exact Bool.noConfusion hok
  | some (Cell.oper n args (some j)) => rw [hc] at hok; exact Bool.noConfusion hok
  | some (Cell.oper n args none) =>
    rw [hc] at hok
    refine ⟨n, args, rfl, fun a ha => ?_⟩
    have hall := List.all_eq_true.mp hok a ha
    rcases Eq.mp (Bool.or_eq_true _ _) hall with hco | hmem
    · left
      rw [isConstB] at hco
      match hca : h[a]? with
      | none => rw [hca] at hco; exact Bool.noConfusion hco
      | some (Cell.const v) => exact ⟨v, hca⟩
      | some (Cell.oper n2 a2 f2) => rw [hca] at hco; exact Bool.noConfusion hco
    · exact Or.inr (of_decide_eq_true hmem)

theorem pending_lt {h : Heap} :
    ∀ {rem done : List Nat}, Pending h done rem = true → ∀ x ∈ rem, x < h.length := by
  intro rem
  induction rem with
  | nil =>
    intro done _ x hx
    exact absurd hx (by simp)
  | cons o rest ih =>
    intro done hp x hx
    rw [Pending] at hp
    obtain ⟨hok, hrest⟩ := Eq.mp (Bool.and_eq_true _ _) hp
    rcases List.mem_cons.mp hx with rfl | hx
    · obtain ⟨n, args, hc, _⟩ := cellOK_spec hok
      exact lt_length_of_cell hc
    · exact ih hrest x hx

theorem repOf_find {h : Heap} {o r : Nat} (hrep : RepOf h o r) : find h o = some r := by
  rcases hrep with ⟨rfl, n, a, hc⟩ | ⟨n, a, hc, ht⟩
  · exact find_unforwarded hc
  · exact find_fwd_terminal hc ht

/-- Resolving a well-formed argument (a Constant or a processed operation)
lands on a Constant or an emitted operation. -/
theorem resolved_arg_good {N0 : Nat} {h : Heap} {out done : List Nat} {a r : Nat}
    (inv : Inv N0 h out done) (ha : IsConst h a ∨ a ∈ done) (hf : find h a = some r) :
    IsConst h r ∨ r ∈ out := by
  rcases ha with ⟨v, hc⟩ | hd
  · rw [find_const hc] at hf
    cases hf
    exact Or.inl ⟨v, hc⟩
  · obtain ⟨r', hrep, hgood⟩ := inv.doneRep a hd
    rw [repOf_find hrep] at hf
    cases hf
    exact hgood

theorem cell_append_terminal {h : Heap} {r : Nat} (l : Heap) (ht : Terminal h r) :
    Terminal (h ++ l) r := by
  rcases ht with ⟨v, hc⟩ | ⟨n, a, hc⟩
  · exact Or.inl ⟨v, cell_append l hc⟩
  · exact Or.inr ⟨n, a, cell_append l hc⟩

/-- The invariant is stable under allocating new cells. -/
theorem inv_append {N0 : Nat} {h : Heap} {out done : List Nat}
    (inv : Inv N0 h out done) (l : Heap) : Inv N0 (h ++ l) out done := by
  refine ⟨le_trans inv.hlen (by rw [List.length_append]; exact Nat.le_add_right _ _),
    fun o ho => ?_, inv.outOrigin, fun o ho => ?_⟩
  · obtain ⟨n, a, hc⟩ := inv.outUn o ho
    exact ⟨n, a, cell_append l hc⟩
  · obtain ⟨r, hrep, hgood⟩ := inv.doneRep o ho
    refine ⟨r, ?_, ?_⟩
    · rcases hrep with ⟨rfl, n, a, hc⟩ | ⟨n, a, hc, ht⟩
      · exact Or.inl ⟨rfl, n, a, cell_append l hc⟩
      · exact Or.inr ⟨n, a, cell_append l hc, cell_append_terminal l ht⟩
    · rcases hgood with ⟨v, hc⟩ | hmem
      · exact Or.inl ⟨v, cell_append l hc⟩
      · exact Or.inr hmem

/-- The invariant is stable under appending a freshly allocated, un-forwarded
operation to the output block. -/
theorem inv_push_out {N0 : Nat} {h : Heap} {out done : List Nat} {p : Nat}
    (inv : Inv N0 h out done) (hp : ∃ n a, h[p]? = some (Cell.oper n a none))
    (hpN : N0 ≤ p) : Inv N0 h (out ++ [p]) done := by
  refine ⟨inv.hlen, fun o ho => ?_, fun o ho => ?_, fun o ho => ?_⟩
  · rcases List.mem_append.mp ho with ho | ho
    · exact inv.outUn o ho
    · cases List.mem_singleton.mp ho
      exact hp
  · rcases List.mem_append.mp ho with ho | ho
    · exact inv.outOrigin o ho
    · cases List.mem_singleton.mp ho
      exact Or.inr hpN
  · obtain ⟨r, hrep, hgood⟩ := inv.doneRep o ho
    refine ⟨r, hrep, ?_⟩
    rcases hgood with hco | hmem
    · exact Or.inl hco
    · exact Or.inr (List.mem_append.mpr (Or.inl hmem))

/-- Emitting the current operation unchanged preserves the invariant. -/
theorem inv_emit {N0 : Nat} {h : Heap} {out done : List Nat} {c : Nat} {n : String}
    {args : List Nat} (inv : Inv N0 h out done)
    (hc : h[c]? = some (Cell.oper n args none)) :
    Inv N0 h (out ++ [c]) (done ++ [c]) := by
  refine ⟨inv.hlen, fun o ho => ?_, fun o ho => ?_, fun o ho => ?_⟩
  · rcases List.mem_append.mp ho with ho | ho
    · exact inv.outUn o ho
    · cases List.mem_singleton.mp ho
      exact ⟨n, args, hc⟩
  · rcases List.mem_append.mp ho with ho | ho
    · rcases inv.outOrigin o ho with hd | hN
      · exact Or.inl (List.mem_append.mpr (Or.inl hd))
      · exact Or.inr hN
    · cases List.mem_singleton.mp ho
      exact Or.inl (List.mem_append.mpr (Or.inr (List.mem_singleton.mpr rfl)))
  · rcases List.mem_append.mp ho with ho | ho
    · obtain ⟨r, hrep, hgood⟩ := inv.doneRep o ho
      refine ⟨r, hrep, ?_⟩
      rcases hgood with hco | hmem
      · exact Or.inl hco
      · exact Or.inr (List.mem_append.mpr (Or.inl hmem))
    · cases List.mem_singleton.mp ho
      exact ⟨c, Or.inl ⟨rfl, n, args, hc⟩,
        Or.inr (List.mem_append.mpr (Or.inr (List.mem_singleton.mpr rfl)))⟩

/-- Unioning the current (un-forwarded, unprocessed) operation toward a
Constant or an emitted operation preserves the invariant, with the operation
now counted as processed. -/
theorem inv_union {N0 : Nat} {h : Heap} {out done : List Nat} {c r : Nat}
    {n : String} {args : List Nat} (inv : Inv N0 h out done)
    (hc : h[c]? = some (Cell.oper n args none)) (hcN : c < N0) (hcdone : c ∉ done)
    (hr : IsConst h r ∨ r ∈ out) :
    Inv N0 (h.set c (Cell.oper n args (some r))) out (done ++ [c]) := by
  have hcout : c ∉ out := by
    intro hco
    rcases inv.outOrigin c hco with hd | hN
    · exact hcdone hd
    · omega
  have hrc : r ≠ c := by
    rintro rfl
    rcases hr with ⟨v, hcon⟩ | hmem
    · rw [hc] at hcon
      cases hcon
    · exact hcout hmem
  have hterm : Terminal h r := by
    rcases hr with ⟨v, hcon⟩ | hmem
    · exact Or.inl ⟨v, hcon⟩
    · obtain ⟨n2, a2, hc2⟩ := inv.outUn r hmem
      exact Or.inr ⟨n2, a2, hc2⟩
  have hset : ∀ i, i ≠ c → (h.set c (Cell.oper n args (some r)))[i]? = h[i]? :=
    fun i hi => List.getElem?_set_ne (fun hh => hi hh.symm)
  have htermset : Terminal (h.set c (Cell.oper n args (some r))) r := by
    rcases hterm with ⟨v, hcon⟩ | ⟨n2, a2, hc2⟩
    · exact Or.inl ⟨v, by rw [hset r hrc]; exact hcon⟩
    · exact Or.inr ⟨n2, a2, by rw [hset r hrc]; exact hc2⟩
  refine ⟨by rw [List.length_set]; exact inv.hlen, fun o ho => ?_, fun o ho => ?_,
    fun o ho => ?_⟩
  · obtain ⟨n2, a2, hc2⟩ := inv.outUn o ho
    have hoc : o ≠ c := fun hh => hcout (hh ▸ ho)
    exact ⟨n2, a2, by rw [hset o hoc]; exact hc2⟩
  · rcases inv.outOrigin o ho with hd | hN
    · exact Or.inl (List.mem_append.mpr (Or.inl hd))
    · exact Or.inr hN
  · rcases List.mem_append.mp ho with ho | ho
    · obtain ⟨r2, hrep, hgood⟩ := inv.doneRep o ho
      have hoc : o ≠ c := fun hh => hcdone (hh ▸ ho)
      have hr2c : r2 ≠ c := by
        rintro rfl
        rcases hgood with ⟨v, hcon⟩ | hmem
        · rw [hc] at hcon
          cases hcon
        · exact hcout hmem
      refine ⟨r2, ?_, ?_⟩
      · rcases hrep with ⟨heq2, n2, a2, hc2⟩ | ⟨n2, a2, hc2, ht2⟩
        · exact Or.inl ⟨heq2, n2, a2, by rw [hset o hoc]; exact hc2⟩
        · refine Or.inr ⟨n2, a2, by rw [hset o hoc]; exact hc2, ?_⟩
          rcases ht2 with ⟨v, hcon⟩ | ⟨n3, a3, hc3⟩
          · exact Or.inl ⟨v, by rw [hset r2 hr2c]; exact hcon⟩
          · exact Or.inr ⟨n3, a3, by rw [hset r2 hr2c]; exact hc3⟩
      · rcases hgood with ⟨v, hcon⟩ | hmem
        · exact Or.inl ⟨v, by rw [hset r2 hr2c]; exact hcon⟩
        · exact Or.inr hmem
    · cases List.mem_singleton.mp ho
      refine ⟨r, Or.inr ⟨n, args, ?_, htermset⟩, ?_⟩
      · rw [List.getElem?_set_eq (lt_length_of_cell hc)]
      · rcases hr with ⟨v, hcon⟩ | hmem
        · exact Or.inl ⟨v, by rw [hset r hrc]; exact hcon⟩
        · exact Or.inr hmem

/-- SSA well-formedness of the unprocessed operations survives a step that
only allocates fresh cells and changes the forward field of the current
operation. -/
theorem pending_stable {h h' : Heap} {c : Nat}
    (hagree : ∀ i, i < h.length → i ≠ c → h'[i]? = h[i]?)
    (hcnc : ∀ v : Int, h[c]? ≠ some (Cell.const v)) :
    ∀ {rem done done' : List Nat}, Pending h done rem = true →
      (∀ x ∈ done, x ∈ done') → c ∉ rem → Pending h' done' rem = true := by
  intro rem
  induction rem with
  | nil => intro done done' _ _ _; rfl
  | cons o rest ih =>
    intro done done' hp hsub hcrem
    rw [Pending] at hp ⊢
    obtain ⟨hok, hrest⟩ := Eq.mp (Bool.and_eq_true _ _) hp
    have hoc : o ≠ c := fun hh => hcrem (hh ▸ List.mem_cons_self o rest)
    obtain ⟨n, args, hc, hargs⟩ := cellOK_spec hok
    have hok' : cellOK h' done' o = true := by
      rw [cellOK, hagree o (lt_length_of_cell hc) hoc, hc]
      refine List.all_eq_true.mpr (fun a ha => ?_)
      rcases hargs a ha with ⟨v, hca⟩ | hmem
      · have hac : a ≠ c := by
          rintro rfl
          exact hcnc v hca
        refine Eq.mpr (Bool.or_eq_true _ _) (Or.inl ?_)
        rw [isConstB, hagree a (lt_length_of_cell hca) hac, hca]
      · exact Eq.mpr (Bool.or_eq_true _ _) (Or.inr (decide_eq_true (hsub a hmem)))
    refine Eq.mpr (Bool.and_eq_true _ _) ⟨hok', ?_⟩
    refine ih hrest (fun x hx => ?_) (fun hcr => hcrem (List.mem_cons_of_mem o hcr))
    rcases List.mem_append.mp hx with hx | hx
    · exact List.mem_append.mpr (Or.inl (hsub x hx))
    · exact List.mem_append.mpr (Or.inr hx)

theorem ok_pair {α β : Type} {a a' : α} {b b' : β}
    (hh : (Except.ok (a, b) : Except Err (α × β)) = Except.ok (a', b')) : a = a' ∧ b = b' := by
  have hp := Except.ok.inj hh
  exact ⟨congrArg Prod.fst hp, congrArg Prod.snd hp⟩

theorem constfoldStep_inv {N0 : Nat} {h h' : Heap} {out out' done : List Nat} {c : Nat}
    (inv : Inv N0 h out done) (hcok : cellOK h done c = true) (hcN : c < N0)
    (hcdone : c ∉ done) (hs : constfoldStep (h, out) c = Except.ok (h', out')) :
    Inv N0 h' out' (done ++ [c]) ∧ ∀ i, i < h.length → i ≠ c → h'[i]? = h[i]? := by
  obtain ⟨n, args, hc, hargs⟩ := cellOK_spec hcok
  rw [constfoldStep] at hs
  rw [show ((h, out).1[c]?) = some (Cell.oper n args none) from hc] at hs
  dsimp only at hs
  by_cases hn : n = "add"
  · rw [if_pos hn] at hs
    match ha0 : argOf h c 0, ha1 : argOf h c 1 with
    | Except.ok a0, Except.ok a1 =>
      rw [ha0, ha1] at hs
      dsimp only at hs
      split at hs
      · rename_i v0 v1 hv0 hv1
        rw [make_equal_to_unforwarded (cell_append _ hc)] at hs
        dsimp only [Except.map] at hs
        obtain ⟨hh, ho⟩ := ok_pair hs
        subst hh
        subst ho
        refine ⟨inv_union (inv_append inv [Cell.const (v0 + v1)]) (cell_append _ hc)
          hcN hcdone (Or.inl ⟨v0 + v1, List.getElem?_concat_length _ _⟩), ?_⟩
        intro i hi hic
        rw [List.getElem?_set_ne (fun hh => hic hh.symm), List.getElem?_append, if_pos hi]
      · obtain ⟨hh, ho⟩ := ok_pair hs
        subst hh
        subst ho
        exact ⟨inv_emit inv hc, fun i _ _ => rfl⟩
    | Except.ok a0, Except.error e =>
      rw [ha0, ha1] at hs
      exact Except.noConfusion hs
    | Except.error e, Except.ok a1 =>
      rw [ha0, ha1] at hs
      exact Except.noConfusion hs
    | Except.error e, Except.error e2 =>
      rw [ha0, ha1] at hs
      exact Except.noConfusion hs
  · rw [if_neg hn] at hs
    obtain ⟨hh, ho⟩ := ok_pair hs
    subst hh
    subst ho
    exact ⟨inv_emit inv hc, fun i _ _ => rfl⟩

theorem cseStep_inv {N0 : Nat} {h h' : Heap} {out out' done : List Nat} {c : Nat}
    (inv : Inv N0 h out done) (hcok : cellOK h done c = true) (hcN : c < N0)
    (hcdone : c ∉ done) (hs : cseStep (h, out) c = Except.ok (h', out')) :
    Inv N0 h' out' (done ++ [c]) ∧ ∀ i, i < h.length → i ≠ c → h'[i]? = h[i]? := by
  obtain ⟨n, args, hc, hargs⟩ := cellOK_spec hcok
  rw [cseStep] at hs
  rw [show ((h, out).1[c]?) = some (Cell.oper n args none) from hc] at hs
  dsimp only at hs
  by_cases hn : n = "add"
  · rw [if_pos hn] at hs
    match ha0 : argOf h c 0, ha1 : argOf h c 1 with
    | Except.ok a0, Except.ok a1 =>
      rw [ha0, ha1] at hs
      dsimp only at hs
      match hfp : find_prev_add_op h a0 a1 out with
      | Except.ok (some prev) =>
        rw [hfp] at hs
        dsimp only at hs
        rw [make_equal_to_unforwarded hc] at hs
        dsimp only [Except.map] at hs
        obtain ⟨hh, ho⟩ := ok_pair hs
        subst hh
        subst ho
        refine ⟨inv_union inv hc hcN hcdone (Or.inr (find_prev_add_op_found hfp).1), ?_⟩
        intro i hi hic
        exact List.getElem?_set_ne (fun hh => hic hh.symm)
      | Except.ok none =>
        rw [hfp] at hs
        dsimp only at hs
        obtain ⟨hh, ho⟩ := ok_pair hs
        subst hh
        subst ho
        exact ⟨inv_emit inv hc, fun i _ _ => rfl⟩
      | Except.error e =>
        rw [hfp] at hs
        exact Except.noConfusion hs
    | Except.ok a0, Except.error e =>
      rw [ha0, ha1] at hs
      exact Except.noConfusion hs
    | Except.error e, Except.ok a1 =>
      rw [ha0, ha1] at hs
      exact Except.noConfusion hs
    | Except.error e, Except.error e2 =>
      rw [ha0, ha1] at hs
      exact Except.noConfusion hs
  · rw [if_neg hn] at hs
    obtain ⟨hh, ho⟩ := ok_pair hs
    subst hh
    subst ho
    exact ⟨inv_emit inv hc, fun i _ _ => rfl⟩

theorem strength_reduceStep_inv {N0 : Nat} {h h' : Heap} {out out' done : List Nat}
    {c : Nat} (inv : Inv N0 h out done) (hcok : cellOK h done c = true) (hcN : c < N0)
    (hcdone : c ∉ done) (hs : strength_reduceStep (h, out) c = Except.ok (h', out')) :
    Inv N0 h' out' (done ++ [c]) ∧ ∀ i, i < h.length → i ≠ c → h'[i]? = h[i]? := by
  obtain ⟨n, args, hc, hargs⟩ := cellOK_spec hcok
  rw [strength_reduceStep] at hs
  rw [show ((h, out).1[c]?) = some (Cell.oper n args none) from hc] at hs
  dsimp only at hs
  by_cases hn : n = "add"
  · rw [if_pos hn] at hs
    match ha0 : argOf h c 0, ha1 : argOf h c 1 with
    | Except.ok a0, Except.ok a1 =>
      rw [ha0, ha1] at hs
      dsimp only at hs
      split at hs
      · simp only [build, wrapargs, wraparg, List.length_append,
          List.length_singleton] at hs
        rw [make_equal_to_unforwarded (cell_append _ (cell_append _ hc))] at hs
        dsimp only [Except.map] at hs
        obtain ⟨hh, ho⟩ := ok_pair hs
        subst hh
        subst ho
        constructor
        · refine inv_union (inv_push_out
            (inv_append (inv_append inv [Cell.const 1])
              [Cell.oper "lshift" [a0, h.length] none])
            ⟨"lshift", [a0, h.length], ?_⟩ (le_trans inv.hlen (Nat.le_succ _)))
            (cell_append _ (cell_append _ hc)) hcN hcdone
            (Or.inr (List.mem_append.mpr (Or.inr (List.mem_singleton.mpr rfl))))
          have hlen1 : h.length + 1 = (h ++ [Cell.const 1]).length := by simp
          rw [hlen1, List.getElem?_concat_length]
        · intro i hi hic
          rw [List.getElem?_set_ne (fun hh => hic hh.symm), List.getElem?_append,
            if_pos (show i < (h ++ [Cell.const 1]).length by simp; omega),
            List.getElem?_append, if_pos hi]
      · obtain ⟨hh, ho⟩ := ok_pair hs
        subst hh
        subst ho
        exact ⟨inv_emit inv hc, fun i _ _ => rfl⟩
    | Except.ok a0, Except.error e =>
      rw [ha0, ha1] at hs
      exact Except.noConfusion hs
    | Except.error e, Except.ok a1 =>
      rw [ha0, ha1] at hs
      exact Except.noConfusion hs
    | Except.error e, Except.error e2 =>
      rw [ha0, ha1] at hs
      exact Except.noConfusion hs
  · rw [if_neg hn] at hs
    obtain ⟨hh, ho⟩ := ok_pair hs
    subst hh
    subst ho
    exact ⟨inv_emit inv hc, fun i _ _ => rfl⟩

theorem optimiseStep_inv {N0 : Nat} {h h' : Heap} {out out' done : List Nat} {c : Nat}
    (inv : Inv N0 h out done) (hcok : cellOK h done c = true) (hcN : c < N0)
    (hcdone : c ∉ done) (hs : optimiseStep (h, out) c = Except.ok (h', out')) :
    Inv N0 h' out' (done ++ [c]) ∧ ∀ i, i < h.length → i ≠ c → h'[i]? = h[i]? := by
  obtain ⟨n, args, hc, hargs⟩ := cellOK_spec hcok
  have hga : ∀ (k r : Nat), argOf h c k = Except.ok r → IsConst h r ∨ r ∈ out := by
    intro k r hak
    obtain ⟨n2, args2, f2, a, hc2, hidx, hfind⟩ := argOf_ok hak
    rw [hc] at hc2
    cases hc2
    exact resolved_arg_good inv (hargs a (List.getElem?_mem hidx)) hfind
  rw [optimiseStep] at hs
  rw [show ((h, out).1[c]?) = some (Cell.oper n args none) from hc] at hs
  dsimp only at hs
  by_cases hn : n = "add"
  · rw [if_pos hn] at hs
    match ha0 : argOf h c 0, ha1 : argOf h c 1 with
    | Except.ok a0, Except.ok a1 =>
      rw [ha0, ha1] at hs
      dsimp only at hs
      split at hs
      · rename_i v0 v1 hv0 hv1
        rw [make_equal_to_unforwarded (cell_append _ hc)] at hs
        dsimp only [Except.map] at hs
        obtain ⟨hh, ho⟩ := ok_pair hs
        subst hh
        subst ho
        refine ⟨inv_union (inv_append inv [Cell.const (v0 + v1)]) (cell_append _ hc)
          hcN hcdone (Or.inl ⟨v0 + v1, List.getElem?_concat_length _ _⟩), ?_⟩
        intro i hi hic
        rw [List.getElem?_set_ne (fun hh => hic hh.symm), List.getElem?_append, if_pos hi]
      · match hfp : find_prev_add_op h a0 a1 out with
        | Except.ok (some prev) =>
          rw [hfp] at hs
          dsimp only at hs
          rw [make_equal_to_unforwarded hc] at hs
          dsimp only [Except.map] at hs
          obtain ⟨hh, ho⟩ := ok_pair hs
          subst hh
          subst ho
          refine ⟨inv_union inv hc hcN hcdone (Or.inr (find_prev_add_op_found hfp).1), ?_⟩
          intro i hi hic
          exact List.getElem?_set_ne (fun hh => hic hh.symm)
        | Except.ok none =>
          rw [hfp] at hs
          dsimp only at hs
          split at hs
          · simp only [build, wrapargs, wraparg, List.length_append,
              List.length_singleton] at hs
            rw [make_equal_to_unforwarded (cell_append _ (cell_append _ hc))] at hs
            dsimp only [Except.map] at hs
            obtain ⟨hh, ho⟩ := ok_pair hs
            subst hh
            subst ho
            constructor
            · refine inv_union (inv_push_out
                (inv_append (inv_append inv [Cell.const 1])
                  [Cell.oper "lshift" [a0, h.length] none])
                ⟨"lshift", [a0, h.length], ?_⟩ (le_trans inv.hlen (Nat.le_succ _)))
                (cell_append _ (cell_append _ hc)) hcN hcdone
                (Or.inr (List.mem_append.mpr (Or.inr (List.mem_singleton.mpr rfl))))
              have hlen1 : h.length + 1 = (h ++ [Cell.const 1]).length := by simp
              rw [hlen1, List.getElem?_concat_length]
            · intro i hi hic
              rw [List.getElem?_set_ne (fun hh => hic hh.symm), List.getElem?_append,
                if_pos (show i < (h ++ [Cell.const 1]).length by simp; omega),
                List.getElem?_append, if_pos hi]
          · split at hs
            · rw [make_equal_to_unforwarded (cell_append _ hc)] at hs
              dsimp only [Except.map] at hs
              obtain ⟨hh, ho⟩ := ok_pair hs
              subst hh
              subst ho
              have hgood : IsConst (h ++ [Cell.const 0]) a1 ∨ a1 ∈ out := by
                rcases hga 1 a1 ha1 with ⟨v, hcv⟩ | hm
                · exact Or.inl ⟨v, cell_append _ hcv⟩
                · exact Or.inr hm
              refine ⟨inv_union (inv_append inv [Cell.const 0]) (cell_append _ hc)
                hcN hcdone hgood, ?_⟩
              intro i hi hic
              rw [List.getElem?_set_ne (fun hh => hic hh.symm), List.getElem?_append,
                if_pos hi]
            · split at hs
              · rw [make_equal_to_unforwarded (cell_append _ (cell_append _ hc))] at hs
                dsimp only [Except.map] at hs
                obtain ⟨hh, ho⟩ := ok_pair hs
                subst hh
                subst ho
                have hgood : IsConst ((h ++ [Cell.const 0]) ++ [Cell.const 0]) a0
                    ∨ a0 ∈ out := by
                  rcases hga 0 a0 ha0 with ⟨v, hcv⟩ | hm
                  · exact Or.inl ⟨v, cell_append _ (cell_append _ hcv)⟩
                  · exact Or.inr hm
                refine ⟨inv_union (inv_append (inv_append inv [Cell.const 0])
                  [Cell.const 0]) (cell_append _ (cell_append _ hc)) hcN hcdone
                  hgood, ?_⟩
                intro i hi hic
                rw [List.getElem?_set_ne (fun hh => hic hh.symm), List.getElem?_append,
                  if_pos (show i < (h ++ [Cell.const 0]).length by simp; omega),
                  List.getElem?_append, if_pos hi]
              · obtain ⟨hh, ho⟩ := ok_pair hs
                subst hh
                subst ho
                refine ⟨inv_emit (inv_append (inv_append inv [Cell.const 0])
                  [Cell.const 0]) (cell_append _ (cell_append _ hc)), ?_⟩
                intro i hi hic
                rw [List.getElem?_append,
                  if_pos (show i < (h ++ [Cell.const 0]).length by simp; omega),
                  List.getElem?_append, if_pos hi]
        | Except.error e =>
          rw [hfp] at hs
          exact Except.noConfusion hs
    | Except.ok a0, Except.error e =>
      rw [ha0, ha1] at hs
      exact Except.noConfusion hs
    | Except.error e, Except.ok a1 =>
      rw [ha0, ha1] at hs
      exact Except.noConfusion hs
    | Except.error e, Except.error e2 =>
      rw [ha0, ha1] at hs
      exact Except.noConfusion hs
  · rw [if_neg hn] at hs
    obtain ⟨hh, ho⟩ := ok_pair hs
    subst hh
    subst ho
    exact ⟨inv_emit inv hc, fun i _ _ => rfl⟩

theorem foldlM_inv {N0 : Nat}
    {step : Heap × Block → Nat → Except Err (Heap × Block)}
    (hstep : ∀ (h : Heap) (out done : List Nat) (c : Nat) (h' : Heap) (out' : List Nat),
      Inv N0 h out done → cellOK h done c = true → c < N0 → c ∉ done →
      step (h, out) c = Except.ok (h', out') →
      Inv N0 h' out' (done ++ [c]) ∧ ∀ i, i < h.length → i ≠ c → h'[i]? = h[i]?) :
    ∀ (rem : List Nat) (h : Heap) (out done : List Nat) (st' : Heap × Block),
      Inv N0 h out done → Pending h done rem = true → (done ++ rem).Nodup →
      (∀ x ∈ rem, x < N0) →
      List.foldlM step (h, out) rem = Except.ok st' →
      Inv N0 st'.1 st'.2 (done ++ rem) := by
  intro rem
  induction rem with
  | nil =>
    intro h out done st' inv _ _ _ hf
    cases hf
    simpa using inv
  | cons c rest ih =>
    intro h out done st' inv hpend hnd hN hf
    rw [List.foldlM_cons] at hf
    rw [Pending] at hpend
    obtain ⟨hokc, hrest⟩ := Eq.mp (Bool.and_eq_true _ _) hpend
    have hnd' : ((done ++ [c]) ++ rest).Nodup := by
      rw [List.append_assoc]
      simpa using hnd
    have hcdone : c ∉ done := by
      rcases List.nodup_append.mp hnd with ⟨_, _, hdisj⟩
      intro hcd
      exact hdisj hcd (List.mem_cons_self c rest)
    have hcrest : c ∉ rest := by
      rcases List.nodup_append.mp hnd with ⟨_, hcr, _⟩
      exact (List.nodup_cons.mp hcr).1
    match hstp : step (h, out) c with
    | Except.error e =>
      rw [hstp] at hf
      exact Except.noConfusion hf
    | Except.ok st2 =>
      rw [hstp] at hf
      dsimp only [Bind.bind, Except.bind] at hf
      obtain ⟨inv2, hagree⟩ := hstep h out done c st2.1 st2.2 inv hokc
        (hN c (List.mem_cons_self c rest)) hcdone (by rw [hstp])
      have hcnc : ∀ v : Int, h[c]? ≠ some (Cell.const v) := by
        obtain ⟨n, args, hc, _⟩ := cellOK_spec hokc
        intro v hv
        rw [hc] at hv
        cases hv
      have hpend2 : Pending st2.1 (done ++ [c]) rest = true :=
        pending_stable hagree hcnc hrest (fun x hx => hx) hcrest
      have hres := ih st2.1 st2.2 (done ++ [c]) st' inv2 hpend2 hnd'
        (fun x hx => hN x (List.mem_cons_of_mem c hx)) hf
      rw [List.append_assoc] at hres
      simpa using hres

/-- C8: after any of the four passes completes on a well-formed SSA block
(distinct, un-forwarded operations whose stored arguments are Constants or
earlier block operations), the canonical representative of every input
operation is a Constant or an operation contained in the pass's output
block — every dropped operation was unioned toward a kept value. -/
theorem C8_dropped_ops_resolve_to_kept :
    ∀ (h : Heap) (bb : Block), bb.Nodup → Pending h [] bb = true →
    (∀ st', constfold h bb = Except.ok st' →
        ∀ o ∈ bb, ∃ r, find st'.1 o = some r ∧ (IsConst st'.1 r ∨ r ∈ st'.2))
    ∧ (∀ st', common_subexpr_elimination h bb = Except.ok st' →
        ∀ o ∈ bb, ∃ r, find st'.1 o = some r ∧ (IsConst st'.1 r ∨ r ∈ st'.2))
    ∧ (∀ st', strength_reduce h bb = Except.ok st' →
        ∀ o ∈ bb, ∃ r, find st'.1 o = some r ∧ (IsConst st'.1 r ∨ r ∈ st'.2))
    ∧ (∀ st', optimise h bb = Except.ok st' →
        ∀ o ∈ bb, ∃ r, find st'.1 o = some r ∧ (IsConst st'.1 r ∨ r ∈ st'.2)) := by
  intro h bb hnd hpend
  have hN : ∀ x ∈ bb, x < h.length := pending_lt hpend
  have inv0 : Inv h.length h [] [] := ⟨le_rfl, by simp, by simp, by simp⟩
  refine ⟨?_, ?_, ?_, ?_⟩
  · intro st' hf o ho
    have hinv := foldlM_inv
      (fun h1 out1 done1 c1 h1' out1' i1 k1 l1 m1 s1 => constfoldStep_inv i1 k1 l1 m1 s1)
      bb h [] [] st' inv0 hpend (by simpa using hnd) hN hf
    obtain ⟨r, hrep, hgood⟩ := hinv.doneRep o (by simpa using ho)
    exact ⟨r, repOf_find hrep, hgood⟩
  · intro st' hf o ho
    have hinv := foldlM_inv
      (fun h1 out1 done1 c1 h1' out1' i1 k1 l1 m1 s1 => cseStep_inv i1 k1 l1 m1 s1)
      bb h [] [] st' inv0 hpend (by simpa using hnd) hN hf
    obtain ⟨r, hrep, hgood⟩ := hinv.doneRep o (by simpa using ho)
    exact ⟨r, repOf_find hrep, hgood⟩
  · intro st' hf o ho
    have hinv := foldlM_inv
      (fun h1 out1 done1 c1 h1' out1' i1 k1 l1 m1 s1 =>
        strength_reduceStep_inv i1 k1 l1 m1 s1)
      bb h [] [] st' inv0 hpend (by simpa using hnd) hN hf
    obtain ⟨r, hrep, hgood⟩ := hinv.doneRep o (by simpa using ho)
    exact ⟨r, repOf_find hrep, hgood⟩
  · intro st' hf o ho
    have hinv := foldlM_inv
      (fun h1 out1 done1 c1 h1' out1' i1 k1 l1 m1 s1 => optimiseStep_inv i1 k1 l1 m1 s1)
      bb h [] [] st' inv0 hpend (by simpa using hnd) hN hf
    obtain ⟨r, hrep, hgood⟩ := hinv.doneRep o (by simpa using ho)
    exact ⟨r, repOf_find hrep, hgood⟩

/-- Witness for C8 on the fused-pass example block: the dropped final
`add(v2,v3)` (heap index 8) resolves to a kept value of the output. -/
theorem C8_dropped_ops_resolve_to_kept_witness :
    ∃ r, find
      [Cell.const 0, Cell.oper "getarg" [0] none, Cell.const 16, Cell.const (-16),
       Cell.oper "add" [2, 3] (some 9), Cell.oper "add" [1, 4] (some 1), Cell.const 0,
       Cell.oper "add" [6, 5] (some 1), Cell.oper "add" [5, 7] (some 14), Cell.const 0,
       Cell.const 0, Cell.const 0, Cell.const 0, Cell.const 1,
       Cell.oper "lshift" [1, 13] none] 8 = some r
    ∧ (IsConst
        [Cell.const 0, Cell.oper "getarg" [0] none, Cell.const 16, Cell.const (-16),
         Cell.oper "add" [2, 3] (some 9), Cell.oper "add" [1, 4] (some 1), Cell.const 0,
         Cell.oper "add" [6, 5] (some 1), Cell.oper "add" [5, 7] (some 14), Cell.const 0,
         Cell.const 0, Cell.const 0, Cell.const 0, Cell.const 1,
         Cell.oper "lshift" [1, 13] none] r ∨ r ∈ [1, 14]) :=
  (C8_dropped_ops_resolve_to_kept fusedInput.1 fusedInput.2 (by decide)
    (by decide)).2.2.2
    ([Cell.const 0, Cell.oper "getarg" [0] none, Cell.const 16, Cell.const (-16),
      Cell.oper "add" [2, 3] (some 9), Cell.oper "add" [1, 4] (some 1), Cell.const 0,
      Cell.oper "add" [6, 5] (some 1), Cell.oper "add" [5, 7] (some 14), Cell.const 0,
      Cell.const 0, Cell.const 0, Cell.const 0, Cell.const 1,
      Cell.oper "lshift" [1, 13] none], [1, 14])
    (by rfl) 8 (by decide)

end ToyOpt
